import Mathlib

/-!
Verification of the flood-infrastructure pipeline
(spatial graph builder, flow simulation, canal-planner search).

The Python sources are shallowly embedded here:
* real-valued quantities (capacities, flows, rainfall, distances, costs)
  are modelled with exact rationals;
* dictionaries become total functions updated pointwise;
* the great-circle (haversine) distance is abstracted as a parameter
  `d : Nat -> Nat -> Rat` on node identifiers, since the claims under test
  depend only on metric-style facts about it, which appear as hypotheses;
* loops with an explicit iteration ceiling become fuel recursion with the
  ceiling as the fuel.
-/

/-- Pointwise update of a total function, modelling a Python dict assignment. -/
def updFn {α β : Type} [DecidableEq α] (f : α → β) (k : α) (v : β) : α → β :=
  fun x => if x = k then v else f x

theorem updFn_same {α β : Type} [DecidableEq α] (f : α → β) (k : α) (v : β) :
    updFn f k v k = v := by
  simp [updFn]

theorem updFn_other {α β : Type} [DecidableEq α] (f : α → β) (k : α) (v : β)
    (x : α) (h : x ≠ k) : updFn f k v x = f x := by
  simp [updFn, h]

/-- Sum of a rational-valued function over a list. -/
def sumBy {α : Type} (L : List α) (f : α → ℚ) : ℚ :=
  (L.map f).sum

theorem sumBy_nil {α : Type} (f : α → ℚ) : sumBy ([] : List α) f = 0 := rfl

theorem sumBy_cons {α : Type} (a : α) (L : List α) (f : α → ℚ) :
    sumBy (a :: L) f = f a + sumBy L f := by
  simp [sumBy]

theorem sumBy_congr {α : Type} {L : List α} {f g : α → ℚ}
    (h : ∀ a ∈ L, f a = g a) : sumBy L f = sumBy L g := by
  induction L with
  | nil => rfl
  | cons a L ih =>
      rw [sumBy_cons, sumBy_cons, h a (List.mem_cons_self a L),
        ih (fun b hb => h b (List.mem_cons_of_mem a hb))]

theorem sumBy_add {α : Type} (L : List α) (f g : α → ℚ) :
    sumBy L (fun a => f a + g a) = sumBy L f + sumBy L g := by
  induction L with
  | nil => simp [sumBy_nil]
  | cons a L ih => rw [sumBy_cons, sumBy_cons, sumBy_cons, ih]; ring

theorem sumBy_le {α : Type} {L : List α} {f g : α → ℚ}
    (h : ∀ a ∈ L, f a ≤ g a) : sumBy L f ≤ sumBy L g := by
  induction L with
  | nil => simp [sumBy_nil]
  | cons a L ih =>
      rw [sumBy_cons, sumBy_cons]
      exact add_le_add (h a (List.mem_cons_self a L))
        (ih (fun b hb => h b (List.mem_cons_of_mem a hb)))

theorem sumBy_zero {α : Type} (L : List α) : sumBy L (fun _ => (0 : ℚ)) = 0 := by
  induction L with
  | nil => rfl
  | cons a L ih => rw [sumBy_cons, ih]; ring

theorem sumBy_filter {α : Type} (L : List α) (p : α → Bool) (f : α → ℚ) :
    sumBy (L.filter p) f = sumBy L (fun a => if p a then f a else 0) := by
  induction L with
  | nil => rfl
  | cons a L ih =>
      by_cases h : p a
      · rw [List.filter_cons_of_pos h, sumBy_cons, sumBy_cons, ih, if_pos h]
      · rw [List.filter_cons_of_neg h, sumBy_cons, ih, if_neg h]; ring

theorem sumBy_const {α : Type} (L : List α) (c : ℚ) :
    sumBy L (fun _ => c) = (L.length : ℚ) * c := by
  induction L with
  | nil => simp [sumBy_nil]
  | cons a L ih => rw [sumBy_cons, ih, List.length_cons]; push_cast; ring

theorem sumBy_div {α : Type} (L : List α) (f : α → ℚ) (c : ℚ) :
    sumBy L (fun a => f a / c) = sumBy L f / c := by
  induction L with
  | nil => simp [sumBy_nil]
  | cons a L ih => rw [sumBy_cons, sumBy_cons, ih]; ring

theorem sumBy_nonneg {α : Type} {L : List α} {f : α → ℚ}
    (h : ∀ a ∈ L, 0 ≤ f a) : 0 ≤ sumBy L f := by
  have := sumBy_le (L := L) (f := fun _ => (0 : ℚ)) (g := f) h
  rwa [sumBy_zero] at this

/-- If a list maps without duplicates, the mapped function is injective on it. -/
theorem nodup_map_inj {α β : Type} {L : List α} {f : α → β}
    (h : (L.map f).Nodup) {a b : α} (ha : a ∈ L) (hb : b ∈ L)
    (hf : f a = f b) : a = b := by
  induction L with
  | nil => cases ha
  | cons x L ih =>
      rw [List.map_cons, List.nodup_cons] at h
      rcases List.mem_cons.mp ha with rfl | ha'
      · rcases List.mem_cons.mp hb with rfl | hb'
        · rfl
        · exact absurd (hf ▸ List.mem_map_of_mem f hb') h.1
      · rcases List.mem_cons.mp hb with rfl | hb'
        · exact absurd (hf ▸ List.mem_map_of_mem f ha') h.1
        · exact ih h.2 ha' hb'

/-- Sum of an indicator-selected value over a list whose key map is
duplicate-free: only the unique matching element contributes. -/
theorem sumBy_single {α β : Type} [DecidableEq β] {L : List α} {g : α → β}
    (hnd : (L.map g).Nodup) (f : α → ℚ) {a : α} (ha : a ∈ L) :
    sumBy L (fun x => if g x = g a then f x else 0) = f a := by
  induction L with
  | nil => cases ha
  | cons x L ih =>
      rw [List.map_cons, List.nodup_cons] at hnd
      rcases List.mem_cons.mp ha with rfl | ha'
      · rw [sumBy_cons, if_pos rfl]
        have hz : sumBy L (fun y => if g y = g a then f y else 0) = 0 := by
          have hc : sumBy L (fun y => if g y = g a then f y else 0)
              = sumBy L (fun _ => (0 : ℚ)) := by
            refine sumBy_congr (fun b hb => ?_)
            have : g b ≠ g a := fun hgb => hnd.1 (hgb ▸ List.mem_map_of_mem g hb)
            rw [if_neg this]
          rw [hc, sumBy_zero]
        rw [hz]; ring
      · have hxa : g x ≠ g a := by
          intro hx
          exact hnd.1 (hx ▸ List.mem_map_of_mem g ha')
        rw [sumBy_cons, if_neg hxa, ih hnd.2 ha']; ring

namespace Flow

/-!
Embedding of flow_simulation.py: edge orientation, rainfall, and the
capacity-proportional flow propagation loop.
-/

/-- A directed edge of the flow network: endpoints and capacity.
The source stores further display attributes (waterway type, name) that no
numeric claim depends on; they are omitted. -/
structure FEdge where
  u : ℕ
  v : ℕ
  cap : ℚ
deriving DecidableEq

/-- One entry of the flooded-edge report built by the propagation loop. -/
structure FloodRec where
  fu : ℕ
  fv : ℕ
  flow : ℚ
  capacity : ℚ
  overflow : ℚ
deriving DecidableEq

/-- Mutable state of the simulation loop: per-node water, the edge-flow
dict (`none` means the key is absent), per-node local excess, and the
flooded-edge list. -/
structure SimState where
  water : ℕ → ℚ
  eflow : ℕ × ℕ → Option ℚ
  excess : ℕ → ℚ
  flooded : List FloodRec

/-- Outgoing edges of a node, in edge-list order. -/
def outE (edges : List FEdge) (n : ℕ) : List FEdge :=
  edges.filter (fun e => decide (e.u = n))

/-- Incoming edges of a node. -/
def inE (edges : List FEdge) (n : ℕ) : List FEdge :=
  edges.filter (fun e => decide (e.v = n))

/-- Share of the available water sent along an edge of capacity `c`:
proportional to capacity, or an equal split when the total capacity is not
positive (the division-by-zero guard in the source). -/
def propOf (total cnt c : ℚ) : ℚ :=
  if 0 < total then c / total else 1 / cnt

/-- The (uncapped) flow recorded for an edge of capacity `c`. -/
def flVal (w total cnt : ℚ) (e : FEdge) : ℚ :=
  w * propOf total cnt e.cap

/-- The water actually forwarded downstream: capped at the edge capacity. -/
def actVal (w total cnt : ℚ) (e : FEdge) : ℚ :=
  if e.cap < flVal w total cnt e then e.cap else flVal w total cnt e

/-- The overflow retained at the upstream node (zero if not flooded). -/
def ovVal (w total cnt : ℚ) (e : FEdge) : ℚ :=
  if e.cap < flVal w total cnt e then flVal w total cnt e - e.cap else 0

/-- The flood-report record produced for an overflowing edge. -/
def recOf (n : ℕ) (w total cnt : ℚ) (e : FEdge) : FloodRec :=
  ⟨n, e.v, flVal w total cnt e, e.cap, flVal w total cnt e - e.cap⟩

/-- Body of the inner loop of the simulation: handle one outgoing edge of
node `n`, with `w` the water read at loop entry, `total` the summed
capacity of the outgoing edges and `cnt` their number. -/
def pushEdge (n : ℕ) (w total cnt : ℚ) (s : SimState) (e : FEdge) : SimState :=
  let fl := w * propOf total cnt e.cap
  let s1 : SimState := { s with eflow := updFn s.eflow (n, e.v) (some fl) }
  if e.cap < fl then
    { s1 with
        flooded := s1.flooded ++ [⟨n, e.v, fl, e.cap, fl - e.cap⟩],
        excess := updFn s1.excess n (s1.excess n + (fl - e.cap)),
        water := updFn s1.water e.v (s1.water e.v + e.cap) }
  else
    { s1 with water := updFn s1.water e.v (s1.water e.v + fl) }

/-- Process one node of the propagation order: distribute its water over
its outgoing edges (skipping sink nodes, whose water exits the system). -/
def processNode (edges : List FEdge) (s : SimState) (n : ℕ) : SimState :=
  let outs := outE edges n
  if outs.isEmpty then s
  else
    outs.foldl
      (pushEdge n (s.water n) ((outs.map (fun e => e.cap)).sum) ((outs.length : ℚ)))
      s

/-- Initial state: every node starts with its rainfall, no recorded flows,
no excess, no flooded edges. -/
def initState (rain : ℕ → ℚ) : SimState :=
  ⟨rain, fun _ => none, fun _ => 0, []⟩

/-- The whole propagation: fold `processNode` over the processing order. -/
def simulate (edges : List FEdge) (rain : ℕ → ℚ) (order : List ℕ) : SimState :=
  order.foldl (processNode edges) (initState rain)

/-- The flow recorded for an edge in the edge-flow dict (0 if absent). -/
def recFlow (s : SimState) (e : FEdge) : ℚ :=
  (s.eflow (e.u, e.v)).getD 0

/-- The part of the recorded flow accepted by the edge (capped at capacity). -/
def accepted (s : SimState) (e : FEdge) : ℚ :=
  min (recFlow s e) e.cap

/-- Derivation of edge direction from an undirected edge: east to west by
longitude, with a north-to-south latitude tie-break. -/
def orientEdge (lon lat : ℕ → ℚ) (p : ℕ × ℕ) : ℕ × ℕ :=
  if lon p.2 < lon p.1 then p
  else if lon p.1 < lon p.2 then (p.2, p.1)
  else if lat p.2 < lat p.1 then p
  else (p.2, p.1)

/-- The directed edge list derived from an undirected edge list. -/
def directedOf (lon lat : ℕ → ℚ) (und : List (ℕ × ℕ)) : List (ℕ × ℕ) :=
  und.map (orientEdge lon lat)

end Flow

namespace Flow

theorem pushEdge_water (n : ℕ) (w total cnt : ℚ) (s : SimState) (e : FEdge) (v : ℕ) :
    (pushEdge n w total cnt s e).water v
      = s.water v + (if e.v = v then actVal w total cnt e else 0) := by
  by_cases h : e.cap < w * propOf total cnt e.cap <;>
    by_cases hv : e.v = v <;>
      [skip; (have hv2 : v ≠ e.v := fun hh => hv hh.symm); skip;
        (have hv2 : v ≠ e.v := fun hh => hv hh.symm)] <;>
      simp [pushEdge, flVal, actVal, updFn, h, hv, *]

theorem pushEdge_excess (n : ℕ) (w total cnt : ℚ) (s : SimState) (e : FEdge) (x : ℕ) :
    (pushEdge n w total cnt s e).excess x
      = s.excess x + (if x = n then ovVal w total cnt e else 0) := by
  by_cases h : e.cap < w * propOf total cnt e.cap <;>
    by_cases hx : x = n <;>
      simp [pushEdge, flVal, ovVal, updFn, h, hx]

theorem pushEdge_eflow_other (n : ℕ) (w total cnt : ℚ) (s : SimState) (e : FEdge)
    (key : ℕ × ℕ) (hk : key ≠ (n, e.v)) :
    (pushEdge n w total cnt s e).eflow key = s.eflow key := by
  by_cases h : e.cap < w * propOf total cnt e.cap <;>
    simp [pushEdge, flVal, updFn, h, hk]

theorem pushEdge_eflow_hit (n : ℕ) (w total cnt : ℚ) (s : SimState) (e : FEdge) :
    (pushEdge n w total cnt s e).eflow (n, e.v) = some (flVal w total cnt e) := by
  by_cases h : e.cap < w * propOf total cnt e.cap <;>
    simp [pushEdge, flVal, updFn, h]

theorem pushEdge_flooded (n : ℕ) (w total cnt : ℚ) (s : SimState) (e : FEdge) :
    (pushEdge n w total cnt s e).flooded
      = s.flooded
        ++ (if e.cap < flVal w total cnt e then [recOf n w total cnt e] else []) := by
  by_cases h : e.cap < w * propOf total cnt e.cap <;>
    simp [pushEdge, flVal, recOf, h]

/-- Characterization of the inner loop of `processNode` over an arbitrary
list of outgoing edges. -/
theorem pushEdge_fold (n : ℕ) (w total cnt : ℚ) (L : List FEdge) (s : SimState) :
    (∀ v, (L.foldl (pushEdge n w total cnt) s).water v
        = s.water v + sumBy L (fun e => if e.v = v then actVal w total cnt e else 0))
    ∧ (∀ x, (L.foldl (pushEdge n w total cnt) s).excess x
        = s.excess x + (if x = n then sumBy L (ovVal w total cnt) else 0))
    ∧ (∀ key : ℕ × ℕ, (∀ e ∈ L, key ≠ (n, e.v)) →
        (L.foldl (pushEdge n w total cnt) s).eflow key = s.eflow key)
    ∧ ((L.map (fun e => e.v)).Nodup → ∀ e ∈ L,
        (L.foldl (pushEdge n w total cnt) s).eflow (n, e.v)
          = some (flVal w total cnt e))
    ∧ (L.foldl (pushEdge n w total cnt) s).flooded
        = s.flooded
          ++ (L.filter (fun e => decide (e.cap < flVal w total cnt e))).map
              (recOf n w total cnt) := by
  induction L generalizing s with
  | nil =>
      refine ⟨fun v => by simp [sumBy_nil], fun x => by simp [sumBy_nil],
        fun key _ => rfl, fun _ e he => absurd he (List.not_mem_nil e), by simp⟩
  | cons e L ih =>
      have hfold : (e :: L).foldl (pushEdge n w total cnt) s
          = L.foldl (pushEdge n w total cnt) (pushEdge n w total cnt s e) := rfl
      obtain ⟨ihW, ihX, ihO, ihH, ihF⟩ := ih (pushEdge n w total cnt s e)
      refine ⟨?_, ?_, ?_, ?_, ?_⟩
      · intro v
        rw [hfold, ihW v, pushEdge_water, sumBy_cons]
        ring
      · intro x
        rw [hfold, ihX x, pushEdge_excess, sumBy_cons]
        by_cases hx : x = n <;> simp [hx] <;> ring
      · intro key hk
        rw [hfold, ihO key (fun e' he' => hk e' (List.mem_cons_of_mem e he')),
          pushEdge_eflow_other]
        exact hk e (List.mem_cons_self e L)
      · intro hnd e0 he0
        rw [List.map_cons, List.nodup_cons] at hnd
        rcases List.mem_cons.mp he0 with rfl | he0'
        · rw [hfold, ihO (n, e0.v) ?_, pushEdge_eflow_hit]
          intro e' he' hkey
          have : e'.v = e0.v := by
            have := congrArg Prod.snd hkey
            simpa using this.symm
          exact hnd.1 (this ▸ List.mem_map_of_mem (fun e => e.v) he')
        · exact hfold ▸ ihH hnd.2 e0 he0'
      · rw [hfold, ihF, pushEdge_flooded]
        by_cases h : e.cap < flVal w total cnt e
        · rw [List.filter_cons_of_pos (by simpa using h), List.map_cons, if_pos h]
          simp
        · rw [List.filter_cons_of_neg (by simpa using h), if_neg h]
          simp

end Flow

namespace Flow

theorem actVal_eq_min (w total cnt : ℚ) (e : FEdge) :
    actVal w total cnt e = min (flVal w total cnt e) e.cap := by
  by_cases h : e.cap < flVal w total cnt e
  · rw [actVal, if_pos h, min_eq_right (le_of_lt h)]
  · rw [actVal, if_neg h, min_eq_left (not_lt.mp h)]

theorem processNode_empty (edges : List FEdge) (s : SimState) (m : ℕ)
    (h : (outE edges m).isEmpty = true) : processNode edges s m = s := by
  simp [processNode, h]

theorem processNode_eq (edges : List FEdge) (s : SimState) (m : ℕ)
    (h : ¬ (outE edges m).isEmpty = true) :
    processNode edges s m
      = (outE edges m).foldl
          (pushEdge m (s.water m) (((outE edges m).map (fun e => e.cap)).sum)
            (((outE edges m).length : ℚ))) s := by
  simp [processNode, h]

theorem mem_outE (edges : List FEdge) (m : ℕ) (e : FEdge) :
    e ∈ outE edges m ↔ e ∈ edges ∧ e.u = m := by
  simp [outE, List.mem_filter]

/-- Loop invariant of the simulation fold: after the nodes of `done` have
been processed, the state fields are fully determined by the recorded edge
flows of the processed edges. -/
def Inv (edges : List FEdge) (rain : ℕ → ℚ) (done : List ℕ) (s : SimState) : Prop :=
  (∀ v, s.water v
      = rain v + sumBy edges (fun e => if e.u ∈ done ∧ e.v = v then accepted s e else 0))
  ∧ (∀ v, 0 ≤ s.water v)
  ∧ (∀ e ∈ edges, e.u ∉ done → s.eflow (e.u, e.v) = none)
  ∧ (∀ e ∈ edges, e.u ∈ done → ∃ q, s.eflow (e.u, e.v) = some q ∧ 0 ≤ q)
  ∧ (∀ x, s.excess x
      = sumBy edges (fun e =>
          if e.u = x ∧ e.u ∈ done ∧ e.cap < recFlow s e then recFlow s e - e.cap else 0))
  ∧ (∀ r, r ∈ s.flooded
      ↔ ∃ e, e ∈ edges ∧ e.u ∈ done ∧ e.cap < recFlow s e
          ∧ r = ⟨e.u, e.v, recFlow s e, e.cap, recFlow s e - e.cap⟩)

end Flow

namespace Flow

theorem outE_targets_nodup (edges : List FEdge) (m : ℕ)
    (hE : (edges.map fun e => (e.u, e.v)).Nodup) :
    ((outE edges m).map (fun e => e.v)).Nodup := by
  have hsub : ((outE edges m).map (fun e => (e.u, e.v))).Sublist
      (edges.map (fun e => (e.u, e.v))) :=
    (List.filter_sublist edges).map _
  have hnd : ((outE edges m).map (fun e => (e.u, e.v))).Nodup := hE.sublist hsub
  have hcong : (outE edges m).map (fun e => (e.u, e.v))
      = ((outE edges m).map (fun e => e.v)).map (fun t => (m, t)) := by
    rw [List.map_map]
    refine List.map_congr_left (fun e he => ?_)
    have hu : e.u = m := ((mem_outE edges m e).mp he).2
    simp [hu, Function.comp]
  rw [hcong] at hnd
  exact hnd.of_map

/-- One step of the outer fold preserves the simulation invariant. -/
theorem Inv_step (edges : List FEdge) (rain : ℕ → ℚ) (done : List ℕ)
    (s : SimState) (m : ℕ)
    (hE : (edges.map fun e => (e.u, e.v)).Nodup)
    (hcap : ∀ e ∈ edges, 0 ≤ e.cap)
    (hm : m ∉ done)
    (hInv : Inv edges rain done s) :
    Inv edges rain (done ++ [m]) (processNode edges s m) := by
  obtain ⟨iW, iNN, iN, iS, iX, iFL⟩ := hInv
  have hdone' : ∀ (x : ℕ), x ∈ done ++ [m] ↔ (x ∈ done ∨ x = m) := by
    intro x; rw [List.mem_append, List.mem_singleton]
  by_cases hout : (outE edges m).isEmpty = true
  · -- the processed node is a sink: nothing changes
    rw [processNode_empty edges s m hout]
    have hnil : outE edges m = [] := by
      cases hh : outE edges m with
      | nil => rfl
      | cons a l => rw [hh] at hout; simp [List.isEmpty] at hout
    have hnoedge : ∀ e ∈ edges, e.u ≠ m := by
      intro e he hu
      have : e ∈ outE edges m := (mem_outE edges m e).mpr ⟨he, hu⟩
      rw [hnil] at this
      exact absurd this (List.not_mem_nil e)
    have hmem : ∀ e ∈ edges, ((e.u ∈ done ++ [m]) ↔ e.u ∈ done) := by
      intro e he
      rw [hdone']
      exact ⟨fun h => h.resolve_right (hnoedge e he), Or.inl⟩
    refine ⟨?_, iNN, ?_, ?_, ?_, ?_⟩
    · intro v
      rw [iW v]
      congr 1
      refine sumBy_congr (fun e he => ?_)
      by_cases hc : e.u ∈ done ∧ e.v = v
      · rw [if_pos hc, if_pos ⟨(hmem e he).mpr hc.1, hc.2⟩]
      · rw [if_neg hc, if_neg (fun hc2 => hc ⟨(hmem e he).mp hc2.1, hc2.2⟩)]
    · exact fun e he hni => iN e he (fun hd => hni ((hmem e he).mpr hd))
    · exact fun e he hi => iS e he ((hmem e he).mp hi)
    · intro x
      rw [iX x]
      refine sumBy_congr (fun e he => ?_)
      by_cases hc : e.u = x ∧ e.u ∈ done ∧ e.cap < recFlow s e
      · rw [if_pos hc, if_pos ⟨hc.1, (hmem e he).mpr hc.2.1, hc.2.2⟩]
      · rw [if_neg hc, if_neg (fun hc2 => hc ⟨hc2.1, (hmem e he).mp hc2.2.1, hc2.2.2⟩)]
    · intro r
      rw [iFL r]
      constructor
      · rintro ⟨e, he, hd, hlt, rfl⟩
        exact ⟨e, he, (hmem e he).mpr hd, hlt, rfl⟩
      · rintro ⟨e, he, hd, hlt, rfl⟩
        exact ⟨e, he, (hmem e he).mp hd, hlt, rfl⟩
  · -- the node has outgoing edges: distribute the water
    rw [processNode_eq edges s m hout]
    obtain ⟨fW, fX, fO, fH, fF⟩ :=
      pushEdge_fold m (s.water m) (((outE edges m).map (fun e => e.cap)).sum)
        (((outE edges m).length : ℚ)) (outE edges m) s
    set w := s.water m with hw
    set total := ((outE edges m).map (fun e => e.cap)).sum with htotal
    set cnt := (((outE edges m).length : ℚ)) with hcnt
    set s2 := (outE edges m).foldl (pushEdge m w total cnt) s with hs2
    have hvnd : ((outE edges m).map (fun e => e.v)).Nodup := outE_targets_nodup edges m hE
    -- recorded flows: new on the processed edges, unchanged elsewhere
    have hstab : ∀ (a b : ℕ), a ≠ m → s2.eflow (a, b) = s.eflow (a, b) := by
      intro a b hne
      refine fO (a, b) (fun e' he' hkey => ?_)
      exact hne (congrArg Prod.fst hkey)
    have hrecm : ∀ e ∈ outE edges m, recFlow s2 e = flVal w total cnt e := by
      intro e he
      have hu : e.u = m := ((mem_outE edges m e).mp he).2
      rw [recFlow, hu, fH hvnd e he]
      rfl
    have hrec_old : ∀ (e : FEdge), e.u ≠ m → recFlow s2 e = recFlow s e := by
      intro e hne
      rw [recFlow, recFlow, hstab e.u e.v hne]
    have hacc_old : ∀ (e : FEdge), e.u ≠ m → accepted s2 e = accepted s e := by
      intro e hne
      rw [accepted, accepted, hrec_old e hne]
    -- nonnegativity of the per-edge quantities
    have hprop : ∀ e ∈ outE edges m, 0 ≤ propOf total cnt e.cap := by
      intro e he
      rw [propOf]
      by_cases ht : 0 < total
      · rw [if_pos ht]
        exact div_nonneg (hcap e ((mem_outE edges m e).mp he).1) (le_of_lt ht)
      · rw [if_neg ht]
        positivity
    have hfl : ∀ e ∈ outE edges m, 0 ≤ flVal w total cnt e := by
      intro e he
      exact mul_nonneg (iNN m) (hprop e he)
    have hact : ∀ e ∈ outE edges m, 0 ≤ actVal w total cnt e := by
      intro e he
      rw [actVal_eq_min]
      exact le_min (hfl e he) (hcap e ((mem_outE edges m e).mp he).1)
    refine ⟨?_, ?_, ?_, ?_, ?_, ?_⟩
    · -- water
      intro v
      rw [fW v, iW v]
      have h2 : sumBy edges (fun e => if e.u ∈ done ∧ e.v = v then accepted s e else 0)
          = sumBy edges (fun e => if e.u ∈ done ∧ e.v = v then accepted s2 e else 0) := by
        refine sumBy_congr (fun e he => ?_)
        by_cases hc : e.u ∈ done ∧ e.v = v
        · rw [if_pos hc, if_pos hc, hacc_old e (fun hu => hm (hu ▸ hc.1))]
        · rw [if_neg hc, if_neg hc]
      have h3 : sumBy (outE edges m) (fun e => if e.v = v then actVal w total cnt e else 0)
          = sumBy edges (fun e => if e.u = m ∧ e.v = v then accepted s2 e else 0) := by
        rw [outE, sumBy_filter]
        refine sumBy_congr (fun e he => ?_)
        by_cases hu : e.u = m
        · rw [if_pos (by simpa using hu)]
          by_cases hv : e.v = v
          · rw [if_pos hv, if_pos ⟨hu, hv⟩, accepted,
              hrecm e ((mem_outE edges m e).mpr ⟨he, hu⟩), ← actVal_eq_min]
          · rw [if_neg hv, if_neg (fun hc => hv hc.2)]
        · rw [if_neg (by simpa using hu), if_neg (fun hc => hu hc.1)]
      rw [h2, h3]
      have h4 : sumBy edges (fun e => if e.u ∈ done ++ [m] ∧ e.v = v then accepted s2 e else 0)
          = sumBy edges (fun e =>
              (if e.u ∈ done ∧ e.v = v then accepted s2 e else 0)
              + (if e.u = m ∧ e.v = v then accepted s2 e else 0)) := by
        refine sumBy_congr (fun e he => ?_)
        by_cases hd : e.u ∈ done
        · have hnm : e.u ≠ m := fun hu => hm (hu ▸ hd)
          by_cases hv : e.v = v
          · rw [if_pos ⟨(hdone' e.u).mpr (Or.inl hd), hv⟩, if_pos ⟨hd, hv⟩,
              if_neg (fun hc => hnm hc.1)]
            ring
          · rw [if_neg (fun hc => hv hc.2), if_neg (fun hc => hv hc.2),
              if_neg (fun hc => hv hc.2)]
            ring
        · by_cases hu : e.u = m
          · by_cases hv : e.v = v
            · rw [if_pos ⟨(hdone' e.u).mpr (Or.inr hu), hv⟩, if_neg (fun hc => hd hc.1),
                if_pos ⟨hu, hv⟩]
              ring
            · rw [if_neg (fun hc => hv hc.2), if_neg (fun hc => hv hc.2),
                if_neg (fun hc => hv hc.2)]
              ring
          · rw [if_neg (fun hc => ((hdone' e.u).mp hc.1).elim hd hu),
              if_neg (fun hc => hd hc.1), if_neg (fun hc => hu hc.1)]
            ring
      rw [h4, sumBy_add]
      ring
    · -- water nonnegative
      intro v
      rw [fW v]
      refine add_nonneg (iNN v) (sumBy_nonneg (fun e he => ?_))
      by_cases hv : e.v = v
      · rw [if_pos hv]; exact hact e he
      · rw [if_neg hv]
    · -- unprocessed edges stay unrecorded
      intro e he hni
      have hnd : e.u ∉ done := fun hd => hni ((hdone' e.u).mpr (Or.inl hd))
      have hnm : e.u ≠ m := fun hu => hni ((hdone' e.u).mpr (Or.inr hu))
      rw [hstab e.u e.v hnm]
      exact iN e he hnd
    · -- processed edges are recorded with a nonnegative flow
      intro e he hi
      rcases (hdone' e.u).mp hi with hd | hu
      · obtain ⟨q, hq, hq0⟩ := iS e he hd
        exact ⟨q, by rw [hstab e.u e.v (fun hu => hm (hu ▸ hd))]; exact hq, hq0⟩
      · have hmem : e ∈ outE edges m := (mem_outE edges m e).mpr ⟨he, hu⟩
        refine ⟨flVal w total cnt e, ?_, hfl e hmem⟩
        have := fH hvnd e hmem
        rw [hu]
        exact this
    · -- excess
      intro x
      rw [fX x, iX x]
      have h2 : sumBy edges (fun e =>
            if e.u = x ∧ e.u ∈ done ∧ e.cap < recFlow s e then recFlow s e - e.cap else 0)
          = sumBy edges (fun e =>
            if e.u = x ∧ e.u ∈ done ∧ e.cap < recFlow s2 e then recFlow s2 e - e.cap else 0) := by
        refine sumBy_congr (fun e he => ?_)
        by_cases hd : e.u ∈ done
        · have heq : recFlow s2 e = recFlow s e := hrec_old e (fun hu => hm (hu ▸ hd))
          rw [heq]
        · rw [if_neg (fun hc => hd hc.2.1), if_neg (fun hc => hd hc.2.1)]
      have h3 : (if x = m then sumBy (outE edges m) (ovVal w total cnt) else 0)
          = sumBy edges (fun e =>
              if e.u = x ∧ e.u = m ∧ e.cap < recFlow s2 e then recFlow s2 e - e.cap else 0) := by
        by_cases hx : x = m
        · rw [if_pos hx, outE, sumBy_filter]
          refine sumBy_congr (fun e he => ?_)
          by_cases hu : e.u = m
          · have hmem : e ∈ outE edges m := (mem_outE edges m e).mpr ⟨he, hu⟩
            have hr : recFlow s2 e = flVal w total cnt e := hrecm e hmem
            rw [if_pos (by simpa using hu), ovVal, hr]
            by_cases hlt : e.cap < flVal w total cnt e
            · rw [if_pos hlt, if_pos ⟨hu.trans hx.symm, hu, hlt⟩]
            · rw [if_neg hlt, if_neg (fun hc => hlt hc.2.2)]
          · rw [if_neg (by simpa using hu), if_neg (fun hc => hu hc.2.1)]
        · rw [if_neg hx]
          have : sumBy edges (fun e =>
              if e.u = x ∧ e.u = m ∧ e.cap < recFlow s2 e then recFlow s2 e - e.cap else 0)
              = sumBy edges (fun _ => (0 : ℚ)) := by
            refine sumBy_congr (fun e he => ?_)
            rw [if_neg (fun hc => hx (hc.1.symm.trans hc.2.1))]
          rw [this, sumBy_zero]
      rw [h2, h3]
      have h4 : sumBy edges (fun e =>
            if e.u = x ∧ e.u ∈ done ++ [m] ∧ e.cap < recFlow s2 e then recFlow s2 e - e.cap else 0)
          = sumBy edges (fun e =>
              (if e.u = x ∧ e.u ∈ done ∧ e.cap < recFlow s2 e then recFlow s2 e - e.cap else 0)
              + (if e.u = x ∧ e.u = m ∧ e.cap < recFlow s2 e then recFlow s2 e - e.cap else 0)) := by
        refine sumBy_congr (fun e he => ?_)
        by_cases hc : e.u = x ∧ e.u ∈ done ++ [m] ∧ e.cap < recFlow s2 e
        · rcases (hdone' e.u).mp hc.2.1 with hd | hu
          · rw [if_pos hc, if_pos ⟨hc.1, hd, hc.2.2⟩,
              if_neg (fun hc2 : e.u = x ∧ e.u = m ∧ e.cap < recFlow s2 e =>
                hm (hc2.2.1 ▸ hd))]
            ring
          · rw [if_pos hc,
              if_neg (fun hc2 : e.u = x ∧ e.u ∈ done ∧ e.cap < recFlow s2 e =>
                hm (hu ▸ hc2.2.1)),
              if_pos ⟨hc.1, hu, hc.2.2⟩]
            ring
        · rw [if_neg hc,
            if_neg (fun hc2 : e.u = x ∧ e.u ∈ done ∧ e.cap < recFlow s2 e =>
              hc ⟨hc2.1, (hdone' e.u).mpr (Or.inl hc2.2.1), hc2.2.2⟩),
            if_neg (fun hc2 : e.u = x ∧ e.u = m ∧ e.cap < recFlow s2 e =>
              hc ⟨hc2.1, (hdone' e.u).mpr (Or.inr hc2.2.1), hc2.2.2⟩)]
          ring
      rw [h4, sumBy_add]
    · -- flooded report
      intro r
      rw [fF, List.mem_append]
      constructor
      · rintro (hr | hr)
        · obtain ⟨e, he, hd, hlt, rfl⟩ := (iFL r).mp hr
          have hnm : e.u ≠ m := fun hu => hm (hu ▸ hd)
          refine ⟨e, he, (hdone' e.u).mpr (Or.inl hd), ?_, ?_⟩
          · rw [hrec_old e hnm]; exact hlt
          · rw [hrec_old e hnm]
        · rw [List.mem_map] at hr
          obtain ⟨e, he, rfl⟩ := hr
          rw [List.mem_filter] at he
          obtain ⟨he, hlt⟩ := he
          have hlt2 : e.cap < flVal w total cnt e := by simpa using hlt
          obtain ⟨he2, hu⟩ := (mem_outE edges m e).mp he
          refine ⟨e, he2, (hdone' e.u).mpr (Or.inr hu), ?_, ?_⟩
          · rw [hrecm e he]; exact hlt2
          · rw [recOf, hrecm e he, hu]
      · rintro ⟨e, he, hd, hlt, rfl⟩
        rcases (hdone' e.u).mp hd with hd2 | hu
        · left
          have hnm : e.u ≠ m := fun hu => hm (hu ▸ hd2)
          refine (iFL _).mpr ⟨e, he, hd2, ?_, ?_⟩
          · rw [← hrec_old e hnm]; exact hlt
          · rw [hrec_old e hnm]
        · right
          rw [List.mem_map]
          have hmem : e ∈ outE edges m := (mem_outE edges m e).mpr ⟨he, hu⟩
          refine ⟨e, ?_, ?_⟩
          · rw [List.mem_filter]
            have hlt2 := hlt
            rw [hrecm e hmem] at hlt2
            exact ⟨hmem, by simpa using hlt2⟩
          · rw [recOf, hrecm e hmem, hu]

end Flow

theorem sumBy_mul_left {α : Type} (L : List α) (f : α → ℚ) (c : ℚ) :
    sumBy L (fun a => c * f a) = c * sumBy L f := by
  induction L with
  | nil => simp [sumBy_nil]
  | cons a L ih => rw [sumBy_cons, sumBy_cons, ih]; ring

namespace Flow

theorem Inv_init (edges : List FEdge) (rain : ℕ → ℚ) (hrain : ∀ v, 0 ≤ rain v) :
    Inv edges rain [] (initState rain) := by
  refine ⟨?_, hrain, fun e _ _ => rfl, ?_, ?_, ?_⟩
  · intro v
    have hz : sumBy edges
        (fun e => if e.u ∈ ([] : List ℕ) ∧ e.v = v then accepted (initState rain) e else 0)
        = sumBy edges (fun _ => (0 : ℚ)) := by
      refine sumBy_congr (fun e _ => ?_)
      rw [if_neg (fun hc => List.not_mem_nil e.u hc.1)]
    rw [hz, sumBy_zero, initState]
    ring
  · intro e _ hd
    exact absurd hd (List.not_mem_nil e.u)
  · intro x
    have hz : sumBy edges
        (fun e => if e.u = x ∧ e.u ∈ ([] : List ℕ) ∧ e.cap < recFlow (initState rain) e
            then recFlow (initState rain) e - e.cap else 0)
        = sumBy edges (fun _ => (0 : ℚ)) := by
      refine sumBy_congr (fun e _ => ?_)
      rw [if_neg (fun hc => List.not_mem_nil e.u hc.2.1)]
    rw [hz, sumBy_zero]
    rfl
  · intro r
    constructor
    · intro hr
      exact absurd hr (List.not_mem_nil r)
    · rintro ⟨e, _, hd, _⟩
      exact absurd hd (List.not_mem_nil e.u)

theorem Inv_fold (edges : List FEdge) (rain : ℕ → ℚ)
    (hE : (edges.map fun e => (e.u, e.v)).Nodup)
    (hcap : ∀ e ∈ edges, 0 ≤ e.cap) :
    ∀ (rest done : List ℕ) (s : SimState), (done ++ rest).Nodup →
      Inv edges rain done s →
      Inv edges rain (done ++ rest) (rest.foldl (processNode edges) s) := by
  intro rest
  induction rest with
  | nil =>
      intro done s _ hInv
      simpa using hInv
  | cons m rest ih =>
      intro done s hnd hInv
      have hnda := List.nodup_append.mp hnd
      have hm : m ∉ done := fun hmem => hnda.2.2 hmem (List.mem_cons_self m rest)
      have step := Inv_step edges rain done s m hE hcap hm hInv
      have hnd2 : ((done ++ [m]) ++ rest).Nodup := by
        rw [List.append_assoc]
        simpa using hnd
      have hmain := ih (done ++ [m]) (processNode edges s m) hnd2 step
      rw [List.append_assoc] at hmain
      simpa using hmain

theorem Inv_simulate (edges : List FEdge) (rain : ℕ → ℚ) (order : List ℕ)
    (hN : order.Nodup)
    (hE : (edges.map fun e => (e.u, e.v)).Nodup)
    (hcap : ∀ e ∈ edges, 0 ≤ e.cap)
    (hrain : ∀ v, 0 ≤ rain v) :
    Inv edges rain order (simulate edges rain order) := by
  have hmain := Inv_fold edges rain hE hcap order [] (initState rain)
    (by simpa using hN) (Inv_init edges rain hrain)
  simpa [simulate] using hmain

theorem recFlow_nonneg_of_Inv (edges : List FEdge) (rain : ℕ → ℚ) (done : List ℕ)
    (s : SimState) (hInv : Inv edges rain done s) (e : FEdge) (he : e ∈ edges) :
    0 ≤ recFlow s e := by
  obtain ⟨_, _, iN, iS, _, _⟩ := hInv
  by_cases hd : e.u ∈ done
  · obtain ⟨q, hq, hq0⟩ := iS e he hd
    rw [recFlow, hq]
    exact hq0
  · rw [recFlow, iN e he hd]
    simp

theorem processNode_eflow_stable (edges : List FEdge) (s : SimState) (m a b : ℕ)
    (hne : a ≠ m) : (processNode edges s m).eflow (a, b) = s.eflow (a, b) := by
  by_cases hout : (outE edges m).isEmpty = true
  · rw [processNode_empty edges s m hout]
  · rw [processNode_eq edges s m hout]
    obtain ⟨_, _, fO, _, _⟩ :=
      pushEdge_fold m (s.water m) (((outE edges m).map (fun e => e.cap)).sum)
        (((outE edges m).length : ℚ)) (outE edges m) s
    exact fO (a, b) (fun e' _ hkey => hne (congrArg Prod.fst hkey))

theorem fold_eflow_stable (edges : List FEdge) :
    ∀ (rest : List ℕ) (s : SimState) (a b : ℕ), a ∉ rest →
      ((rest.foldl (processNode edges) s).eflow (a, b)) = s.eflow (a, b) := by
  intro rest
  induction rest with
  | nil => intro s a b _; rfl
  | cons m rest ih =>
      intro s a b ha
      have hne : a ≠ m := fun h => ha (h ▸ List.mem_cons_self m rest)
      have ha2 : a ∉ rest := fun h => ha (List.mem_cons_of_mem m h)
      show ((rest.foldl (processNode edges) (processNode edges s m)).eflow (a, b))
          = s.eflow (a, b)
      rw [ih (processNode edges s m) a b ha2, processNode_eflow_stable edges s m a b hne]

theorem sum_propOf (edges : List FEdge) (m : ℕ)
    (hne : ¬ (outE edges m).isEmpty = true) :
    sumBy (outE edges m)
        (fun e => propOf (((outE edges m).map (fun e => e.cap)).sum)
          (((outE edges m).length : ℚ)) e.cap) = 1 := by
  have hnil : outE edges m ≠ [] := by
    intro h
    rw [h] at hne
    exact hne rfl
  by_cases ht : 0 < ((outE edges m).map (fun e => e.cap)).sum
  · have hc : sumBy (outE edges m)
        (fun e => propOf (((outE edges m).map (fun e => e.cap)).sum)
          (((outE edges m).length : ℚ)) e.cap)
        = sumBy (outE edges m)
            (fun e => e.cap / ((outE edges m).map (fun e => e.cap)).sum) := by
      refine sumBy_congr (fun e _ => ?_)
      rw [propOf, if_pos ht]
    rw [hc, sumBy_div]
    have hsum : sumBy (outE edges m) (fun e => e.cap)
        = ((outE edges m).map (fun e => e.cap)).sum := rfl
    rw [hsum]
    exact div_self (ne_of_gt ht)
  · have hc : sumBy (outE edges m)
        (fun e => propOf (((outE edges m).map (fun e => e.cap)).sum)
          (((outE edges m).length : ℚ)) e.cap)
        = sumBy (outE edges m) (fun _ => 1 / (((outE edges m).length : ℚ))) := by
      refine sumBy_congr (fun e _ => ?_)
      rw [propOf, if_neg ht]
    rw [hc, sumBy_const]
    have hlen : ((outE edges m).length : ℚ) ≠ 0 := by
      have : 0 < (outE edges m).length := List.length_pos.mpr hnil
      exact_mod_cast Nat.pos_iff_ne_zero.mp this
    field_simp

theorem outflow_at_processing (edges : List FEdge) (s : SimState) (m : ℕ)
    (hE : (edges.map fun e => (e.u, e.v)).Nodup)
    (hne : ¬ (outE edges m).isEmpty = true) :
    sumBy (outE edges m) (recFlow (processNode edges s m)) = s.water m := by
  rw [processNode_eq edges s m hne]
  obtain ⟨_, _, _, fH, _⟩ :=
    pushEdge_fold m (s.water m) (((outE edges m).map (fun e => e.cap)).sum)
      (((outE edges m).length : ℚ)) (outE edges m) s
  have hvnd := outE_targets_nodup edges m hE
  have hc : sumBy (outE edges m)
      (recFlow ((outE edges m).foldl
        (pushEdge m (s.water m) (((outE edges m).map (fun e => e.cap)).sum)
          (((outE edges m).length : ℚ))) s))
      = sumBy (outE edges m)
          (flVal (s.water m) (((outE edges m).map (fun e => e.cap)).sum)
            (((outE edges m).length : ℚ))) := by
    refine sumBy_congr (fun e he => ?_)
    have hu : e.u = m := ((mem_outE edges m e).mp he).2
    rw [recFlow, hu, fH hvnd e he]
    rfl
  rw [hc]
  have hfl : sumBy (outE edges m)
      (flVal (s.water m) (((outE edges m).map (fun e => e.cap)).sum)
        (((outE edges m).length : ℚ)))
      = s.water m * sumBy (outE edges m)
          (fun e => propOf (((outE edges m).map (fun e => e.cap)).sum)
            (((outE edges m).length : ℚ)) e.cap) := by
    rw [← sumBy_mul_left]
    rfl
  rw [hfl, sum_propOf edges m hne]
  ring

end Flow

namespace Flow

theorem isEmpty_true_iff {α : Type} (l : List α) : l.isEmpty = true ↔ l = [] := by
  cases l <;> simp [List.isEmpty]

/-- C2: at a processed node the recorded outgoing flows sum to the water
available when the node was processed, which is its rainfall plus the
capped (accepted) flow delivered by the upstream edges processed earlier. -/
theorem outflow_conservation (edges : List FEdge) (rain : ℕ → ℚ) (l₁ l₂ : List ℕ) (n : ℕ)
    (hN : (l₁ ++ n :: l₂).Nodup)
    (hE : (edges.map fun e => (e.u, e.v)).Nodup)
    (hcap : ∀ e ∈ edges, 0 ≤ e.cap)
    (hrain : ∀ v, 0 ≤ rain v) :
    sumBy (outE edges n) (recFlow (simulate edges rain (l₁ ++ n :: l₂)))
      ≤ rain n + sumBy (inE edges n) (accepted (simulate edges rain (l₁ ++ n :: l₂)))
    ∧ (outE edges n ≠ [] →
       (∀ e ∈ edges, e.v = n → e.u ∈ l₁ ++ n :: l₂ → e.u ∈ l₁) →
       sumBy (outE edges n) (recFlow (simulate edges rain (l₁ ++ n :: l₂)))
         = rain n + sumBy edges (fun e =>
             if e.v = n ∧ e.u ∈ l₁ ++ n :: l₂
             then accepted (simulate edges rain (l₁ ++ n :: l₂)) e else 0)) := by
  have hnodups := List.nodup_append.mp hN
  have hn_l1 : n ∉ l₁ := fun h => hnodups.2.2 h (List.mem_cons_self n l₂)
  have hn_l2 : n ∉ l₂ := (List.nodup_cons.mp hnodups.2.1).1
  have hdisj : l₁.Disjoint (n :: l₂) := hnodups.2.2
  have hsim : simulate edges rain (l₁ ++ n :: l₂)
      = l₂.foldl (processNode edges)
          (processNode edges (l₁.foldl (processNode edges) (initState rain)) n) := by
    rw [simulate, List.foldl_append]
    rfl
  have hInvF : Inv edges rain (l₁ ++ n :: l₂) (simulate edges rain (l₁ ++ n :: l₂)) :=
    Inv_simulate edges rain (l₁ ++ n :: l₂) hN hE hcap hrain
  have hInv1 : Inv edges rain l₁ (l₁.foldl (processNode edges) (initState rain)) := by
    have hmain := Inv_fold edges rain hE hcap l₁ [] (initState rain)
      (by simpa using hnodups.1) (Inv_init edges rain hrain)
    simpa using hmain
  have haccnn : ∀ e ∈ edges, 0 ≤ accepted (simulate edges rain (l₁ ++ n :: l₂)) e := by
    intro e he
    exact le_min (recFlow_nonneg_of_Inv edges rain _ _ hInvF e he) (hcap e he)
  -- the exact value of the outgoing sum, when the node has outgoing edges
  have hkey : outE edges n ≠ [] →
      sumBy (outE edges n) (recFlow (simulate edges rain (l₁ ++ n :: l₂)))
        = rain n + sumBy edges (fun e =>
            if e.u ∈ l₁ ∧ e.v = n
            then accepted (simulate edges rain (l₁ ++ n :: l₂)) e else 0) := by
    intro houts
    have hne : ¬ (outE edges n).isEmpty = true := by
      intro h
      exact houts ((isEmpty_true_iff (outE edges n)).mp h)
    have hstab_out : ∀ e ∈ outE edges n,
        recFlow (simulate edges rain (l₁ ++ n :: l₂)) e
          = recFlow (processNode edges (l₁.foldl (processNode edges) (initState rain)) n) e := by
      intro e he
      have hu : e.u = n := ((mem_outE edges n e).mp he).2
      rw [hsim, recFlow, recFlow,
        fold_eflow_stable edges l₂ _ e.u e.v (by rw [hu]; exact hn_l2)]
    have hstab_in : ∀ e ∈ edges, e.u ∈ l₁ →
        accepted (simulate edges rain (l₁ ++ n :: l₂)) e
          = accepted (l₁.foldl (processNode edges) (initState rain)) e := by
      intro e he hu
      have h1 : e.u ∉ l₂ := fun h2 => hdisj hu (List.mem_cons_of_mem n h2)
      have h2 : e.u ≠ n := fun h2 => hn_l1 (h2 ▸ hu)
      rw [hsim, accepted, accepted, recFlow, recFlow,
        fold_eflow_stable edges l₂ _ e.u e.v h1,
        processNode_eflow_stable edges _ n e.u e.v h2]
    have hc1 : sumBy (outE edges n) (recFlow (simulate edges rain (l₁ ++ n :: l₂)))
        = sumBy (outE edges n)
            (recFlow (processNode edges (l₁.foldl (processNode edges) (initState rain)) n)) :=
      sumBy_congr hstab_out
    rw [hc1, outflow_at_processing edges _ n hE hne, hInv1.1 n]
    congr 1
    refine sumBy_congr (fun e he => ?_)
    by_cases hc : e.u ∈ l₁ ∧ e.v = n
    · rw [if_pos hc, if_pos hc, hstab_in e he hc.1]
    · rw [if_neg hc, if_neg hc]
  constructor
  · -- upper bound by the total accepted inflow
    have hub : rain n + sumBy edges (fun e =>
          if e.u ∈ l₁ ∧ e.v = n
          then accepted (simulate edges rain (l₁ ++ n :: l₂)) e else 0)
        ≤ rain n + sumBy (inE edges n) (accepted (simulate edges rain (l₁ ++ n :: l₂))) := by
      rw [inE, sumBy_filter]
      refine add_le_add_left (sumBy_le (fun e he => ?_)) (rain n)
      by_cases hv : e.v = n
      · by_cases hu : e.u ∈ l₁
        · rw [if_pos ⟨hu, hv⟩, if_pos (by simpa using hv)]
        · rw [if_neg (fun hc : e.u ∈ l₁ ∧ e.v = n => hu hc.1),
            if_pos (by simpa using hv)]
          exact haccnn e he
      · rw [if_neg (fun hc : e.u ∈ l₁ ∧ e.v = n => hv hc.2),
          if_neg (by simpa using hv)]
    by_cases houts : outE edges n = []
    · rw [houts, sumBy_nil]
      refine add_nonneg (hrain n) ?_
      rw [inE, sumBy_filter]
      refine sumBy_nonneg (fun e he => ?_)
      by_cases hv : e.v = n
      · rw [if_pos (by simpa using hv)]
        exact haccnn e he
      · rw [if_neg (by simpa using hv)]
    · rw [hkey houts]
      exact hub
  · -- exact conservation under a topological processing order
    intro houts htopo
    rw [hkey houts]
    congr 1
    refine sumBy_congr (fun e he => ?_)
    by_cases hv : e.v = n
    · by_cases hu : e.u ∈ l₁
      · rw [if_pos ⟨hu, hv⟩, if_pos ⟨hv, List.mem_append.mpr (Or.inl hu)⟩]
      · rw [if_neg (fun hc => hu hc.1),
          if_neg (fun hc => hu (htopo e he hv hc.2))]
    · rw [if_neg (fun hc => hv hc.2), if_neg (fun hc => hv hc.1)]

end Flow

namespace Flow

/-- C3: an edge with a recorded flow appears in the flood report exactly
when its flow strictly exceeds its capacity, and the reported overflow is
flow minus capacity, which is then strictly positive. -/
theorem flood_flag_iff (edges : List FEdge) (rain : ℕ → ℚ) (order : List ℕ)
    (hN : order.Nodup)
    (hE : (edges.map fun e => (e.u, e.v)).Nodup)
    (hcap : ∀ e' ∈ edges, 0 ≤ e'.cap)
    (hrain : ∀ v, 0 ≤ rain v)
    (e : FEdge) (he : e ∈ edges) (fl : ℚ)
    (hrec : (simulate edges rain order).eflow (e.u, e.v) = some fl) :
    ((∃ r ∈ (simulate edges rain order).flooded, r.fu = e.u ∧ r.fv = e.v)
        ↔ e.cap < fl)
    ∧ (∀ r ∈ (simulate edges rain order).flooded, r.fu = e.u → r.fv = e.v →
        r.flow = fl ∧ r.capacity = e.cap ∧ r.overflow = fl - e.cap ∧ 0 < r.overflow) := by
  obtain ⟨_, _, iN, iS, _, iFL⟩ := Inv_simulate edges rain order hN hE hcap hrain
  have hflval : recFlow (simulate edges rain order) e = fl := by
    rw [recFlow, hrec]
    rfl
  have huniq : ∀ e' ∈ edges, e'.u = e.u → e'.v = e.v → e' = e := by
    intro e' he' h1 h2
    exact nodup_map_inj hE he' he (by rw [h1, h2])
  have hu_in : e.u ∈ order := by
    by_contra hnot
    rw [iN e he hnot] at hrec
    exact Option.noConfusion hrec
  constructor
  · constructor
    · rintro ⟨r, hr, hru, hrv⟩
      obtain ⟨e2, he2, hd2, hlt2, rfl⟩ := (iFL r).mp hr
      have h1 : e2.u = e.u := hru
      have h2 : e2.v = e.v := hrv
      have he2e : e2 = e := huniq e2 he2 h1 h2
      subst he2e
      rw [hflval] at hlt2
      exact hlt2
    · intro hlt
      refine ⟨⟨e.u, e.v, recFlow (simulate edges rain order) e, e.cap,
        recFlow (simulate edges rain order) e - e.cap⟩,
        (iFL _).mpr ⟨e, he, hu_in, ?_, rfl⟩, rfl, rfl⟩
      rw [hflval]
      exact hlt
  · intro r hr hru hrv
    obtain ⟨e2, he2, hd2, hlt2, rfl⟩ := (iFL r).mp hr
    have h1 : e2.u = e.u := hru
    have h2 : e2.v = e.v := hrv
    have he2e : e2 = e := huniq e2 he2 h1 h2
    have hfl2 : recFlow (simulate edges rain order) e2 = fl := by
      rw [he2e, hflval]
    refine ⟨hfl2, ?_, ?_, ?_⟩
    · show e2.cap = e.cap
      rw [he2e]
    · show recFlow (simulate edges rain order) e2 - e2.cap = fl - e.cap
      rw [hfl2, he2e]
    · show (0 : ℚ) < recFlow (simulate edges rain order) e2 - e2.cap
      exact sub_pos.mpr hlt2

/-- C4: processing a node forwards, along each outgoing edge, the full
proportional flow when it fits the capacity, and exactly the capacity when
it does not, accumulating every per-edge overflow as local excess of the
processed node; the uncapped flow itself is what gets recorded. -/
theorem flow_split_capped (edges : List FEdge) (s : SimState) (n : ℕ)
    (w total cnt : ℚ)
    (hw : w = s.water n)
    (htot : total = ((outE edges n).map (fun e => e.cap)).sum)
    (hcnt : cnt = ((outE edges n).length : ℚ))
    (hE : (edges.map fun e => (e.u, e.v)).Nodup)
    (e : FEdge) (he : e ∈ outE edges n) :
    ((e.cap < flVal w total cnt e →
        (processNode edges s n).water e.v = s.water e.v + e.cap)
     ∧ (¬ e.cap < flVal w total cnt e →
        (processNode edges s n).water e.v = s.water e.v + flVal w total cnt e))
    ∧ (processNode edges s n).excess n
        = s.excess n + sumBy (outE edges n) (ovVal w total cnt)
    ∧ (processNode edges s n).eflow (n, e.v) = some (flVal w total cnt e) := by
  subst hw htot hcnt
  have hne : ¬ (outE edges n).isEmpty = true := by
    intro h
    rw [(isEmpty_true_iff (outE edges n)).mp h] at he
    exact List.not_mem_nil e he
  rw [processNode_eq edges s n hne]
  obtain ⟨fW, fX, fO, fH, fF⟩ :=
    pushEdge_fold n (s.water n) (((outE edges n).map (fun e => e.cap)).sum)
      (((outE edges n).length : ℚ)) (outE edges n) s
  have hvnd := outE_targets_nodup edges n hE
  have hsingle : sumBy (outE edges n)
      (fun e' => if e'.v = e.v
        then actVal (s.water n) (((outE edges n).map (fun e => e.cap)).sum)
          (((outE edges n).length : ℚ)) e' else 0)
      = actVal (s.water n) (((outE edges n).map (fun e => e.cap)).sum)
          (((outE edges n).length : ℚ)) e :=
    sumBy_single hvnd _ he
  refine ⟨⟨?_, ?_⟩, ?_, ?_⟩
  · intro hlt
    rw [fW e.v, hsingle, actVal, if_pos hlt]
  · intro hlt
    rw [fW e.v, hsingle, actVal, if_neg hlt]
  · rw [fX n, if_pos rfl]
  · exact fH hvnd e he

/-- C6: every undirected edge is oriented from the strictly-higher-longitude
endpoint to the other one, falling back to higher-latitude first when the
longitudes are exactly equal. -/
theorem edge_orientation (lon lat : ℕ → ℚ) (und : List (ℕ × ℕ)) (u v : ℕ)
    (h : (u, v) ∈ und) :
    (lon v < lon u → (u, v) ∈ directedOf lon lat und)
    ∧ (lon u < lon v → (v, u) ∈ directedOf lon lat und)
    ∧ (lon u = lon v → lat v < lat u → (u, v) ∈ directedOf lon lat und)
    ∧ (lon u = lon v → lat u < lat v → (v, u) ∈ directedOf lon lat und) := by
  refine ⟨fun h1 => ?_, fun h1 => ?_, fun h1 h2 => ?_, fun h1 h2 => ?_⟩ <;>
    rw [directedOf, List.mem_map]
  · exact ⟨(u, v), h, by simp [orientEdge, h1]⟩
  · exact ⟨(u, v), h, by simp [orientEdge, h1, lt_asymm h1]⟩
  · exact ⟨(u, v), h, by simp [orientEdge, h1, lt_irrefl, h2]⟩
  · exact ⟨(u, v), h, by simp [orientEdge, h1, lt_irrefl, lt_asymm h2]⟩

end Flow

namespace BuildG

/-!
Embedding of the endpoint-clustering step of build_graph.py: the KD-tree
pair query becomes an explicit list of index pairs within the snap
threshold (planar squared distance, as the query uses plain coordinate
space), and the recursive find with path compression is given explicit
fuel; the correctness lemmas below show any fuel at least the number of
processed pairs is enough.
-/

/-- find with path compression, with fuel bounding the recursion depth. -/
def findA : ℕ → (ℕ → ℕ) → ℕ → ((ℕ → ℕ) × ℕ)
  | 0, p, x => (p, x)
  | fuel + 1, p, x =>
      if p x = x then (p, x)
      else
        ((updFn (findA fuel p (p x)).1 x (findA fuel p (p x)).2),
          (findA fuel p (p x)).2)

/-- union of the clusters of `x` and `y`: find both roots (compressing),
then point the first root at the second when they differ. -/
def unionA (fuel : ℕ) (p : ℕ → ℕ) (x y : ℕ) : ℕ → ℕ :=
  if (findA fuel p x).2 ≠ (findA fuel (findA fuel p x).1 y).2 then
    updFn (findA fuel (findA fuel p x).1 y).1 (findA fuel p x).2
      (findA fuel (findA fuel p x).1 y).2
  else (findA fuel (findA fuel p x).1 y).1

/-- union all nearby endpoint pairs, in order. -/
def unionPairs (fuel : ℕ) (l : List (ℕ × ℕ)) (p : ℕ → ℕ) : ℕ → ℕ :=
  l.foldl (fun q ij => unionA fuel q ij.1 ij.2) p

/-- squared planar coordinate distance, as used by the spatial pair query. -/
def sqDist (a b : ℚ × ℚ) : ℚ :=
  (a.1 - b.1) ^ 2 + (a.2 - b.2) ^ 2

/-- all index pairs (i, j), i < j, whose endpoints lie within the snap
threshold; `r2` is the squared threshold radius. -/
def pairsWithin (cs : List (ℚ × ℚ)) (r2 : ℚ) : List (ℕ × ℕ) :=
  (List.range cs.length).flatMap (fun i =>
    ((List.range cs.length).filter (fun j =>
        decide (i < j) && decide (sqDist (cs.getD i (0, 0)) (cs.getD j (0, 0)) ≤ r2))).map
      (fun j => (i, j)))

/-- the parent array after clustering all endpoints of `cs`. -/
def clusterParent (cs : List (ℚ × ℚ)) (r2 : ℚ) : ℕ → ℕ :=
  unionPairs (pairsWithin cs r2).length (pairsWithin cs r2) id

/-- `x` reaches the root `r` in `k` parent steps. -/
def ReachK (p : ℕ → ℕ) (x r k : ℕ) : Prop :=
  p^[k] x = r ∧ p r = r

/-- two endpoints lie in the same cluster: they reach a common root. -/
def sameCluster (p : ℕ → ℕ) (a b : ℕ) : Prop :=
  ∃ r ka kb, ReachK p a r ka ∧ ReachK p b r kb

theorem reach_root {p : ℕ → ℕ} {r : ℕ} (h : p r = r) (k : ℕ) : ReachK p r r k :=
  ⟨Function.iterate_fixed h k, h⟩

theorem reach_uniq {p : ℕ → ℕ} {x r s k m : ℕ}
    (h1 : ReachK p x r k) (h2 : ReachK p x s m) : r = s := by
  rcases le_total k m with hkm | hmk
  · have hm : p^[m] x = r := by
      have h : m = (m - k) + k := (Nat.sub_add_cancel hkm).symm
      rw [h, Function.iterate_add_apply, h1.1, Function.iterate_fixed h1.2]
    exact (h2.1.symm.trans hm).symm
  · have hk : p^[k] x = s := by
      have h : k = (k - m) + m := (Nat.sub_add_cancel hmk).symm
      rw [h, Function.iterate_add_apply, h2.1, Function.iterate_fixed h2.2]
    exact h1.1.symm.trans hk

theorem reach_step {p : ℕ → ℕ} {x r k : ℕ} (hne : p x ≠ x) (h : ReachK p x r k) :
    ∃ k2, k = k2 + 1 ∧ ReachK p (p x) r k2 := by
  cases k with
  | zero =>
      have hxr : x = r := h.1
      exact absurd (hxr.symm ▸ h.2) hne
  | succ k2 =>
      refine ⟨k2, rfl, ?_, h.2⟩
      have hit := h.1
      rw [Function.iterate_succ_apply] at hit
      exact hit

/-- pointing a node directly at its own root preserves every reachability
fact without lengthening any chain. -/
theorem reach_update_compress (q : ℕ → ℕ) (x r : ℕ)
    (hxr : ∃ kx, ReachK q x r kx) :
    ∀ k z s, ReachK q z s k → ∃ k2 ≤ k, ReachK (updFn q x r) z s k2 := by
  intro k
  induction k using Nat.strong_induction_on with
  | _ k ih =>
    intro z s hz
    obtain ⟨kx, hx⟩ := hxr
    have hroot : (updFn q x r) r = r := by
      by_cases hrx : r = x
      · simp [updFn, hrx]
      · rw [updFn_other q x r r hrx]
        exact hx.2
    by_cases hzx : z = x
    · have hsr : s = r := reach_uniq (hzx ▸ hz) hx
      by_cases hk : k = 0
      · have hzs : z = s := by
          have h0 := hz.1
          rw [hk] at h0
          exact h0
        refine ⟨0, by omega, ?_, ?_⟩
        · show (updFn q x r)^[0] z = s
          rw [Function.iterate_zero_apply]
          exact hzs
        · rw [hsr]
          exact hroot
      · refine ⟨1, Nat.one_le_iff_ne_zero.mpr hk, ?_, ?_⟩
        · show (updFn q x r)^[1] z = s
          rw [Function.iterate_one, hzx, updFn_same, hsr]
        · rw [hsr]
          exact hroot
    · by_cases hfix : q z = z
      · have hsz : s = z := reach_uniq hz (reach_root hfix 0)
        refine ⟨0, Nat.zero_le k, hsz.symm, ?_⟩
        rw [hsz, updFn_other q x r z hzx]
        exact hfix
      · obtain ⟨k2, hk2, hstep⟩ := reach_step hfix hz
        obtain ⟨k3, hk3, hr3⟩ := ih k2 (by omega) (q z) s hstep
        refine ⟨k3 + 1, by omega, ?_, hr3.2⟩
        show (updFn q x r)^[k3 + 1] z = s
        rw [Function.iterate_succ_apply, updFn_other q x r z hzx]
        exact hr3.1

/-- pointing one root at another merges exactly the two clusters, adding at
most one step to any chain. -/
theorem reach_update_roots (q : ℕ → ℕ) (a b : ℕ) (ha : q a = a) (hb : q b = b) :
    ∀ k z s, ReachK q z s k →
      ∃ k2 ≤ k + 1, ReachK (updFn q a b) z (if s = a then b else s) k2 := by
  intro k
  induction k using Nat.strong_induction_on with
  | _ k ih =>
    intro z s hz
    have hrootb : (updFn q a b) b = b := by
      by_cases hba : b = a
      · simp [updFn, hba]
      · rw [updFn_other q a b b hba]
        exact hb
    by_cases hza : z = a
    · have hsa : s = a := reach_uniq (hza ▸ hz) (reach_root ha 0)
      rw [if_pos hsa]
      refine ⟨1, by omega, ?_, hrootb⟩
      show (updFn q a b)^[1] z = b
      rw [Function.iterate_one, hza, updFn_same]
    · by_cases hfix : q z = z
      · have hsz : s = z := reach_uniq hz (reach_root hfix 0)
        rw [if_neg (fun hcon => hza (hsz.symm.trans hcon))]
        refine ⟨0, by omega, hsz.symm, ?_⟩
        rw [hsz, updFn_other q a b z hza]
        exact hfix
      · obtain ⟨k2, hk2, hstep⟩ := reach_step hfix hz
        obtain ⟨k3, hk3, hr3⟩ := ih k2 (by omega) (q z) s hstep
        refine ⟨k3 + 1, by omega, ?_, hr3.2⟩
        show (updFn q a b)^[k3 + 1] z = _
        rw [Function.iterate_succ_apply, updFn_other q a b z hza]
        exact hr3.1

/-- find returns the root of its argument and compresses without changing
any cluster, provided the fuel covers the chain length. -/
theorem findA_spec : ∀ (fuel : ℕ) (p : ℕ → ℕ) (x r k : ℕ), ReachK p x r k → k ≤ fuel →
    (findA fuel p x).2 = r
    ∧ ∀ z s j, ReachK p z s j → ∃ j2 ≤ j, ReachK (findA fuel p x).1 z s j2 := by
  intro fuel
  induction fuel with
  | zero =>
      intro p x r k hx hk
      have hk0 : k = 0 := Nat.le_zero.mp hk
      subst hk0
      exact ⟨hx.1, fun z s j hz => ⟨j, le_refl j, hz⟩⟩
  | succ fuel ih =>
      intro p x r k hx hk
      by_cases hfix : p x = x
      · have heq : findA (fuel + 1) p x = (p, x) := by
          simp [findA, hfix]
        have hxr : x = r := reach_uniq (reach_root hfix 0) hx
        rw [heq]
        exact ⟨hxr, fun z s j hz => ⟨j, le_refl j, hz⟩⟩
      · obtain ⟨k2, hk2, hstep⟩ := reach_step hfix hx
        have hk2f : k2 ≤ fuel := by omega
        obtain ⟨hroot2, hpres⟩ := ih p (p x) r k2 hstep hk2f
        have heq : findA (fuel + 1) p x
            = (updFn (findA fuel p (p x)).1 x (findA fuel p (p x)).2,
                (findA fuel p (p x)).2) := by
          simp [findA, hfix]
        constructor
        · rw [heq]
          exact hroot2
        · intro z s j hz
          obtain ⟨j2, hj2, hz2⟩ := hpres z s j hz
          have hx1 : ∃ kx, ReachK (findA fuel p (p x)).1 x r kx := by
            obtain ⟨j3, _, hz3⟩ := hpres x r k hx
            exact ⟨j3, hz3⟩
          obtain ⟨j4, hj4, hz4⟩ :=
            reach_update_compress (findA fuel p (p x)).1 x r hx1 j2 z s hz2
          rw [heq]
          refine ⟨j4, le_trans hj4 hj2, ?_⟩
          rw [hroot2]
          exact hz4

/-- union merges the two clusters of its arguments and nothing else, with
chains growing by at most one step. -/
theorem unionA_spec (fuel : ℕ) (p : ℕ → ℕ) (x y rx ry kx ky : ℕ)
    (hx : ReachK p x rx kx) (hkx : kx ≤ fuel)
    (hy : ReachK p y ry ky) (hky : ky ≤ fuel) :
    ∀ z s j, ReachK p z s j →
      ∃ j2 ≤ j + 1, ReachK (unionA fuel p x y) z (if s = rx then ry else s) j2 := by
  intro z s j hz
  obtain ⟨hr1, hp1⟩ := findA_spec fuel p x rx kx hx hkx
  obtain ⟨ky1, hky1, hy1⟩ := hp1 y ry ky hy
  obtain ⟨hr2, hp2⟩ := findA_spec fuel (findA fuel p x).1 y ry ky1 hy1 (le_trans hky1 hky)
  obtain ⟨kz1, hkz1, hz1⟩ := hp1 z s j hz
  obtain ⟨kz2, hkz2, hz2⟩ := hp2 z s kz1 hz1
  obtain ⟨kx1, _, hx1⟩ := hp1 x rx kx hx
  obtain ⟨kx2, _, hx2⟩ := hp2 x rx kx1 hx1
  obtain ⟨ky2, _, hy2⟩ := hp2 y ry ky1 hy1
  by_cases hne : rx = ry
  · have hu : unionA fuel p x y = (findA fuel (findA fuel p x).1 y).1 := by
      rw [unionA, hr1, hr2, if_neg (by simp [hne])]
    rw [hu]
    by_cases hsx : s = rx
    · rw [if_pos hsx]
      refine ⟨kz2, by omega, ?_⟩
      rw [← hne, ← hsx]
      exact hz2
    · rw [if_neg hsx]
      exact ⟨kz2, by omega, hz2⟩
  · have hu : unionA fuel p x y
        = updFn (findA fuel (findA fuel p x).1 y).1 rx ry := by
      rw [unionA, hr1, hr2, if_pos (by simp [hne])]
  
    rw [hu]
    obtain ⟨j4, hj4, hz4⟩ :=
      reach_update_roots (findA fuel (findA fuel p x).1 y).1 rx ry hx2.2 hy2.2 kz2 z s hz2
    exact ⟨j4, by omega, hz4⟩

end BuildG

namespace BuildG

theorem sameCluster_symm {p : ℕ → ℕ} {a b : ℕ} (h : sameCluster p a b) :
    sameCluster p b a := by
  obtain ⟨r, ka, kb, h1, h2⟩ := h
  exact ⟨r, kb, ka, h2, h1⟩

theorem sameCluster_trans {p : ℕ → ℕ} {a b c : ℕ}
    (h1 : sameCluster p a b) (h2 : sameCluster p b c) : sameCluster p a c := by
  obtain ⟨r, ka, kb, hra, hrb⟩ := h1
  obtain ⟨r2, kb2, kc, hrb2, hrc⟩ := h2
  have hr : r = r2 := reach_uniq hrb hrb2
  exact ⟨r, ka, kc, hra, hr ▸ hrc⟩

/-- folding union over a pair list: every endpoint still reaches a root
(with chains bounded by the number of unions), existing cluster equalities
are preserved, and every processed pair ends up in one cluster. -/
theorem unionPairs_spec (fuel : ℕ) :
    ∀ (l : List (ℕ × ℕ)) (p : ℕ → ℕ) (m : ℕ),
      (∀ z, ∃ s k, k ≤ m ∧ ReachK p z s k) →
      m + l.length ≤ fuel →
      (∀ z, ∃ s k, k ≤ m + l.length ∧ ReachK (unionPairs fuel l p) z s k)
      ∧ (∀ a b, sameCluster p a b → sameCluster (unionPairs fuel l p) a b)
      ∧ (∀ ij ∈ l, sameCluster (unionPairs fuel l p) ij.1 ij.2) := by
  intro l
  induction l with
  | nil =>
      intro p m hB _
      exact ⟨fun z => by simpa using hB z, fun a b h => h,
        fun ij hij => absurd hij (List.not_mem_nil ij)⟩
  | cons xy l ih =>
      intro p m hB hf
      have hlen : (xy :: l).length = l.length + 1 := rfl
      obtain ⟨rx, kx, hkx, hx⟩ := hB xy.1
      obtain ⟨ry, ky, hky, hy⟩ := hB xy.2
      have hkxf : kx ≤ fuel := by omega
      have hkyf : ky ≤ fuel := by omega
      have hmap := unionA_spec fuel p xy.1 xy.2 rx ry kx ky hx hkxf hy hkyf
      have hql : unionPairs fuel (xy :: l) p
          = unionPairs fuel l (unionA fuel p xy.1 xy.2) := rfl
      have hB2 : ∀ z, ∃ s k, k ≤ m + 1 ∧ ReachK (unionA fuel p xy.1 xy.2) z s k := by
        intro z
        obtain ⟨s, k, hk, hz⟩ := hB z
        obtain ⟨k2, hk2, hz2⟩ := hmap z s k hz
        exact ⟨(if s = rx then ry else s), k2, by omega, hz2⟩
      have hpres : ∀ a b, sameCluster p a b →
          sameCluster (unionA fuel p xy.1 xy.2) a b := by
        rintro a b ⟨r, ka, kb, hra, hrb⟩
        obtain ⟨ka2, _, hra2⟩ := hmap a r ka hra
        obtain ⟨kb2, _, hrb2⟩ := hmap b r kb hrb
        exact ⟨(if r = rx then ry else r), ka2, kb2, hra2, hrb2⟩
      have hnew : sameCluster (unionA fuel p xy.1 xy.2) xy.1 xy.2 := by
        obtain ⟨ka2, _, hra2⟩ := hmap xy.1 rx kx hx
        obtain ⟨kb2, _, hrb2⟩ := hmap xy.2 ry ky hy
        rw [if_pos rfl] at hra2
        rw [ite_self] at hrb2
        exact ⟨ry, ka2, kb2, hra2, hrb2⟩
      obtain ⟨B3, P3, N3⟩ := ih (unionA fuel p xy.1 xy.2) (m + 1) hB2 (by omega)
      rw [hql]
      refine ⟨fun z => ?_, fun a b h => P3 a b (hpres a b h), ?_⟩
      · obtain ⟨s, k, hk, hz⟩ := B3 z
        exact ⟨s, k, by omega, hz⟩
      · intro ij hij
        rcases List.mem_cons.mp hij with rfl | hij2
        · exact P3 ij.1 ij.2 hnew
        · exact N3 ij hij2

theorem sqDist_symm (a b : ℚ × ℚ) : sqDist a b = sqDist b a := by
  rw [sqDist, sqDist]
  ring

theorem mem_pairsWithin (cs : List (ℚ × ℚ)) (r2 : ℚ) (i j : ℕ)
    (hi : i < cs.length) (hj : j < cs.length) (hij : i < j)
    (hd : sqDist (cs.getD i (0, 0)) (cs.getD j (0, 0)) ≤ r2) :
    (i, j) ∈ pairsWithin cs r2 := by
  rw [pairsWithin, List.mem_flatMap]
  refine ⟨i, List.mem_range.mpr hi, ?_⟩
  rw [List.mem_map]
  refine ⟨j, ?_, rfl⟩
  rw [List.mem_filter]
  refine ⟨List.mem_range.mpr hj, ?_⟩
  simp only [Bool.and_eq_true, decide_eq_true_eq]
  exact ⟨hij, hd⟩

/-- C7: transitive snapping. If A is within the snap threshold of B, and B
within the threshold of C, then after union-find clustering A, B and C all
share one root (hence are merged into a single node), no matter how far A
is from C. -/
theorem snap_transitivity (cs : List (ℚ × ℚ)) (r2 : ℚ) (A B C : ℕ)
    (hA : A < cs.length) (hB : B < cs.length) (hC : C < cs.length)
    (hAB : A ≠ B) (hBC : B ≠ C)
    (hdAB : sqDist (cs.getD A (0, 0)) (cs.getD B (0, 0)) ≤ r2)
    (hdBC : sqDist (cs.getD B (0, 0)) (cs.getD C (0, 0)) ≤ r2) :
    sameCluster (clusterParent cs r2) A B
    ∧ sameCluster (clusterParent cs r2) B C
    ∧ sameCluster (clusterParent cs r2) A C := by
  have hinit : ∀ z, ∃ s k, k ≤ 0 ∧ ReachK (id : ℕ → ℕ) z s k :=
    fun z => ⟨z, 0, le_refl 0, rfl, rfl⟩
  obtain ⟨_, _, N⟩ := unionPairs_spec (pairsWithin cs r2).length (pairsWithin cs r2) id 0
    hinit (by omega)
  have hABc : sameCluster (clusterParent cs r2) A B := by
    rcases Nat.lt_or_ge A B with hlt | hge
    · exact N (A, B) (mem_pairsWithin cs r2 A B hA hB hlt hdAB)
    · have hlt : B < A := lt_of_le_of_ne hge (fun h => hAB h.symm)
      exact sameCluster_symm
        (N (B, A) (mem_pairsWithin cs r2 B A hB hA hlt (by rw [sqDist_symm]; exact hdAB)))
  have hBCc : sameCluster (clusterParent cs r2) B C := by
    rcases Nat.lt_or_ge B C with hlt | hge
    · exact N (B, C) (mem_pairsWithin cs r2 B C hB hC hlt hdBC)
    · have hlt : C < B := lt_of_le_of_ne hge (fun h => hBC h.symm)
      exact sameCluster_symm
        (N (C, B) (mem_pairsWithin cs r2 C B hC hB hlt (by rw [sqDist_symm]; exact hdBC)))
  exact ⟨hABc, hBCc, sameCluster_trans hABc hBCc⟩

end BuildG

namespace Astar

/-!
Embedding of astar_pathfinding.py. The great-circle distance between node
positions is abstracted as `d : Nat -> Nat -> Rat`; the cost constants are
the configuration constants of the source. Infinite float values (empty
dict entries, empty goal list) are modelled by 'Option Rat' with 'none'
playing the role of positive infinity.
-/

def EXISTING_EDGE_BASE_COST : ℚ := 1

def NEW_EDGE_CONSTRUCTION_COST : ℚ := 300

def FLOOD_TRAVERSAL_COST_MULTIPLIER : ℚ := 1 / 10

def MAX_NEW_EDGE_DISTANCE_KM : ℚ := 1 / 2

def COST_PER_KM_USD_MILLIONS : ℚ := 5

/-- Cost of one step of the search: construction cost for a synthetic
edge, discounted distance for a flooded existing edge, plain distance
otherwise. -/
def getEdgeCost (d : ℕ → ℕ → ℚ) (flooded : List (ℕ × ℕ)) (u v : ℕ)
    (isNew : Bool) : ℚ :=
  if isNew then d u v * NEW_EDGE_CONSTRUCTION_COST
  else
    if (u, v) ∈ flooded then
      d u v * EXISTING_EDGE_BASE_COST * FLOOD_TRAVERSAL_COST_MULTIPLIER
    else d u v * EXISTING_EDGE_BASE_COST

/-- The running minimum of the heuristic loop over the remaining goals. -/
def heurFold (d : ℕ → ℕ → ℚ) (node : ℕ) (m : ℚ) (gs : List ℕ) : ℚ :=
  gs.foldl (fun m g => if d node g < m then d node g else m) m

/-- The heuristic for a nonempty goal list `g :: gs`: minimum distance from
the node to any goal. -/
def heurVal (d : ℕ → ℕ → ℚ) (node g : ℕ) (gs : List ℕ) : ℚ :=
  heurFold d node (d node g) gs

/-- The heuristic of the source, `none` meaning the float infinity returned
for an empty goal list. -/
def heurOpt (d : ℕ → ℕ → ℚ) (node : ℕ) (goals : List ℕ) : Option ℚ :=
  match goals with
  | [] => none
  | g :: gs => some (heurVal d node g gs)

/-- A candidate continuation list from a node, mirroring get_neighbors:
`false` marks existing outgoing edges, `true` marks synthetic edges to
non-adjacent nodes within the construction radius. -/
def validSteps (d : ℕ → ℕ → ℚ) (E : List (ℕ × ℕ)) (nodes : List ℕ) :
    ℕ → List (ℕ × Bool) → Bool
  | _, [] => true
  | u, (v, false) :: rest =>
      decide ((u, v) ∈ E) && validSteps d E nodes v rest
  | u, (v, true) :: rest =>
      decide (v ≠ u) && decide ((u, v) ∉ E) && decide ((v, u) ∉ E)
        && decide (v ∈ nodes) && decide (d u v ≤ MAX_NEW_EDGE_DISTANCE_KM)
        && validSteps d E nodes v rest

/-- No existing-edge step of the walk traverses a flooded edge. -/
def noFloodedStep (flooded : List (ℕ × ℕ)) : ℕ → List (ℕ × Bool) → Bool
  | _, [] => true
  | u, (v, b) :: rest =>
      (b || decide ((u, v) ∉ flooded)) && noFloodedStep flooded v rest

/-- Total cost of a walk under the search edge-cost function. -/
def stepsCost (d : ℕ → ℕ → ℚ) (flooded : List (ℕ × ℕ)) :
    ℕ → List (ℕ × Bool) → ℚ
  | _, [] => 0
  | u, (v, b) :: rest => getEdgeCost d flooded u v b + stepsCost d flooded v rest

/-- Final node of a walk. -/
def stepsEnd : ℕ → List (ℕ × Bool) → ℕ
  | u, [] => u
  | _, (v, _) :: rest => stepsEnd v rest

/-- The claim shape of heuristic admissibility at one node: the heuristic
value is a lower bound on the cost of every walk from the node to a goal. -/
def AdmissibleFrom (d : ℕ → ℕ → ℚ) (E : List (ℕ × ℕ)) (nodes : List ℕ)
    (flooded : List (ℕ × ℕ)) (g : ℕ) (gs : List ℕ) (node : ℕ) : Prop :=
  ∀ steps, validSteps d E nodes node steps = true →
    stepsEnd node steps ∈ g :: gs →
    heurVal d node g gs ≤ stepsCost d flooded node steps

theorem heurFold_le_init (d : ℕ → ℕ → ℚ) (node : ℕ) :
    ∀ (gs : List ℕ) (m : ℚ), heurFold d node m gs ≤ m := by
  intro gs
  induction gs with
  | nil => intro m; exact le_refl m
  | cons g gs ih =>
      intro m
      have hstep : (if d node g < m then d node g else m) ≤ m := by
        by_cases h : d node g < m
        · rw [if_pos h]; exact le_of_lt h
        · rw [if_neg h]
      exact le_trans (ih (if d node g < m then d node g else m)) hstep

theorem heurFold_le_mem (d : ℕ → ℕ → ℚ) (node : ℕ) :
    ∀ (gs : List ℕ) (m : ℚ) (x : ℕ), x ∈ gs → heurFold d node m gs ≤ d node x := by
  intro gs
  induction gs with
  | nil => intro m x hx; exact absurd hx (List.not_mem_nil x)
  | cons g gs ih =>
      intro m x hx
      rcases List.mem_cons.mp hx with rfl | hx2
      · have hstep : (if d node x < m then d node x else m) ≤ d node x := by
          by_cases h : d node x < m
          · rw [if_pos h]
          · rw [if_neg h]; exact not_lt.mp h
        exact le_trans (heurFold_le_init d node gs _) hstep
      · exact ih _ x hx2

theorem heurFold_triangle (d : ℕ → ℕ → ℚ) (u v : ℕ)
    (htri : ∀ x y z, d x z ≤ d x y + d y z) :
    ∀ (gs : List ℕ) (m1 m2 : ℚ), m1 ≤ d u v + m2 →
      heurFold d u m1 gs ≤ d u v + heurFold d v m2 gs := by
  intro gs
  induction gs with
  | nil => intro m1 m2 h; exact h
  | cons g gs ih =>
      intro m1 m2 h
      refine ih _ _ ?_
      show (if d u g < m1 then d u g else m1)
          ≤ d u v + (if d v g < m2 then d v g else m2)
      have hg : d u g ≤ d u v + d v g := htri u v g
      by_cases h1 : d u g < m1 <;> by_cases h2 : d v g < m2
      · rw [if_pos h1, if_pos h2]; exact hg
      · rw [if_pos h1, if_neg h2]
        have := not_lt.mp h2
        linarith
      · rw [if_neg h1, if_pos h2]
        have := not_lt.mp h1
        linarith
      · rw [if_neg h1, if_neg h2]; exact h

/-- The minimum-distance heuristic satisfies the triangle step inequality. -/
theorem heurVal_triangle (d : ℕ → ℕ → ℚ) (u v g : ℕ) (gs : List ℕ)
    (htri : ∀ x y z, d x z ≤ d x y + d y z) :
    heurVal d u g gs ≤ d u v + heurVal d v g gs :=
  heurFold_triangle d u v htri gs (d u g) (d v g) (htri u v g)

theorem heurVal_le_goal (d : ℕ → ℕ → ℚ) (node g : ℕ) (gs : List ℕ) (x : ℕ)
    (hx : x ∈ g :: gs) : heurVal d node g gs ≤ d node x := by
  rcases List.mem_cons.mp hx with rfl | hx2
  · exact heurFold_le_init d node gs (d node x)
  · exact heurFold_le_mem d node gs (d node g) x hx2

end Astar

namespace Astar

/-- C1 (amended): the heuristic is a lower bound on the cost of every valid
walk to a goal that traverses no flooded existing edge. (The flood discount
breaks the bound on flooded edges; see the counterexample.) -/
theorem heuristic_admissible_no_flood (d : ℕ → ℕ → ℚ) (E : List (ℕ × ℕ))
    (nodes : List ℕ) (flooded : List (ℕ × ℕ)) (g : ℕ) (gs : List ℕ)
    (hzero : ∀ x, d x x = 0) (hnn : ∀ x y, 0 ≤ d x y)
    (htri : ∀ x y z, d x z ≤ d x y + d y z) :
    ∀ (steps : List (ℕ × Bool)) (node : ℕ),
      validSteps d E nodes node steps = true →
      noFloodedStep flooded node steps = true →
      stepsEnd node steps ∈ g :: gs →
      heurVal d node g gs ≤ stepsCost d flooded node steps := by
  intro steps
  induction steps with
  | nil =>
      intro node _ _ hend
      have h1 : heurVal d node g gs ≤ d node node := heurVal_le_goal d node g gs node hend
      rw [hzero node] at h1
      exact h1
  | cons vb rest ih =>
      intro node hv hnf hend
      obtain ⟨v, b⟩ := vb
      have hvt : validSteps d E nodes v rest = true := by
        cases b with
        | false =>
            simp only [validSteps, Bool.and_eq_true] at hv
            exact hv.2
        | true =>
            simp only [validSteps, Bool.and_eq_true] at hv
            exact hv.2
      have hnft : noFloodedStep flooded v rest = true := by
        simp only [noFloodedStep, Bool.and_eq_true] at hnf
        exact hnf.2
      have hcost : d node v ≤ getEdgeCost d flooded node v b := by
        cases b with
        | false =>
            have hnfh : (node, v) ∉ flooded := by
              simp only [noFloodedStep, Bool.false_or, Bool.and_eq_true,
                decide_eq_true_eq] at hnf
              exact hnf.1
            simp [getEdgeCost, hnfh, EXISTING_EDGE_BASE_COST]
        | true =>
            have h0 := hnn node v
            have h300 : d node v * 1 ≤ d node v * 300 :=
              mul_le_mul_of_nonneg_left (by norm_num) h0
            rw [mul_one] at h300
            simpa [getEdgeCost, NEW_EDGE_CONSTRUCTION_COST] using h300
      calc heurVal d node g gs
          ≤ d node v + heurVal d v g gs := heurVal_triangle d node v g gs htri
        _ ≤ getEdgeCost d flooded node v b + stepsCost d flooded v rest :=
            add_le_add hcost (ih v hvt hnft hend)
        _ = stepsCost d flooded node ((v, b) :: rest) := rfl

/-- A concrete distance realizing the counterexample: the discrete metric. -/
def dCex : ℕ → ℕ → ℚ := fun x y => if x = y then 0 else 1

theorem dCex_zero (x : ℕ) : dCex x x = 0 := by
  simp [dCex]

theorem dCex_symm (x y : ℕ) : dCex x y = dCex y x := by
  unfold dCex
  by_cases h : x = y
  · rw [h]
  · rw [if_neg h, if_neg (fun hh => h hh.symm)]

theorem dCex_nonneg (x y : ℕ) : 0 ≤ dCex x y := by
  unfold dCex
  split_ifs <;> norm_num

theorem dCex_tri (x y z : ℕ) : dCex x z ≤ dCex x y + dCex y z := by
  unfold dCex
  by_cases hxz : x = z
  · rw [if_pos hxz]
    split_ifs <;> norm_num
  · rw [if_neg hxz]
    by_cases hxy : x = y
    · have hyz : ¬ y = z := fun h => hxz (hxy.trans h)
      rw [if_pos hxy, if_neg hyz]
      norm_num
    · rw [if_neg hxy]
      split_ifs <;> norm_num

/-- C1 (counterexample): with one flooded existing edge from the node
straight to the only goal, the discounted edge cost 0.1 x distance drops
below the heuristic (the plain distance), even though the distance function
is a genuine metric. The claimed admissibility therefore fails on the code. -/
theorem heuristic_admissibility_fails_on_flooded_edge :
    (∀ x, dCex x x = 0) ∧ (∀ x y, dCex x y = dCex y x)
    ∧ (∀ x y, 0 ≤ dCex x y) ∧ (∀ x y z, dCex x z ≤ dCex x y + dCex y z)
    ∧ ¬ AdmissibleFrom dCex [(0, 1)] [0, 1] [(0, 1)] 1 [] 0 := by
  refine ⟨dCex_zero, dCex_symm, dCex_nonneg, dCex_tri, ?_⟩
  intro h
  have hinst := h [(1, false)] (by decide) (by decide)
  norm_num [heurVal, heurFold, stepsCost, getEdgeCost, dCex,
    EXISTING_EDGE_BASE_COST, FLOOD_TRAVERSAL_COST_MULTIPLIER] at hinst

end Astar

namespace Astar

/-- Comparison with `none` as positive infinity (float inf semantics). -/
def optLt : Option ℚ → Option ℚ → Bool
  | some a, some b => decide (a < b)
  | some _, none => true
  | none, _ => false

/-- Addition with `none` absorbing, as float infinity does. -/
def optAdd : Option ℚ → Option ℚ → Option ℚ
  | some a, some b => some (a + b)
  | _, _ => none

/-- Lexicographic order on heap entries (f-score, node), as Python compares
its (float, int) tuples. -/
def entryLt (x y : Option ℚ × ℕ) : Bool :=
  optLt x.1 y.1 || (decide (x.1 = y.1) && decide (x.2 < y.2))

/-- Pop the minimal entry of the priority queue. -/
def popMin (l : List (Option ℚ × ℕ)) :
    Option ((Option ℚ × ℕ) × List (Option ℚ × ℕ)) :=
  match l with
  | [] => none
  | x :: xs =>
      some (xs.foldl (fun acc y => if entryLt y acc then y else acc) x,
        l.erase (xs.foldl (fun acc y => if entryLt y acc then y else acc) x))

/-- The per-search mutable state: open list, its membership set, parent
pointers with the synthetic-edge flag, g-scores and f-scores. -/
structure SState where
  opn : List (Option ℚ × ℕ)
  hsh : List ℕ
  came : ℕ → Option (ℕ × Bool)
  gsc : ℕ → Option ℚ
  fsc : ℕ → Option ℚ

/-- Neighbor generation: existing outgoing edges, then lazily generated
synthetic candidates to non-adjacent nodes within the construction radius. -/
def neighborsOf (d : ℕ → ℕ → ℚ) (E : List (ℕ × ℕ)) (nodes : List ℕ)
    (allowNew : Bool) (node : ℕ) : List (ℕ × Bool) :=
  let existing := (E.filter (fun e => decide (e.1 = node))).map (fun e => (e.2, false))
  if allowNew then
    existing ++ ((nodes.filter (fun m =>
        decide (m ≠ node) && decide ((node, m) ∉ E) && decide ((m, node) ∉ E)
          && decide (d node m ≤ MAX_NEW_EDGE_DISTANCE_KM))).map (fun m => (m, true)))
  else existing

/-- One relaxation: update parent, g and f on strict improvement, and push
the neighbor when it is not already queued. -/
def relaxStep (d : ℕ → ℕ → ℚ) (flooded : List (ℕ × ℕ)) (goals : List ℕ)
    (current : ℕ) (st : SState) (nb : ℕ × Bool) : SState :=
  let tentative := optAdd (st.gsc current) (some (getEdgeCost d flooded current nb.1 nb.2))
  if optLt tentative (st.gsc nb.1) then
    let fv := optAdd tentative (heurOpt d nb.1 goals)
    if nb.1 ∈ st.hsh then
      { opn := st.opn, hsh := st.hsh,
        came := updFn st.came nb.1 (some (current, nb.2)),
        gsc := updFn st.gsc nb.1 tentative,
        fsc := updFn st.fsc nb.1 fv }
    else
      { opn := st.opn ++ [(fv, nb.1)], hsh := nb.1 :: st.hsh,
        came := updFn st.came nb.1 (some (current, nb.2)),
        gsc := updFn st.gsc nb.1 tentative,
        fsc := updFn st.fsc nb.1 fv }
  else st

/-- Path reconstruction by walking parent pointers; the fuel models the
unbounded Python loop, and one more than the node count always suffices
for the parent chains the search builds. -/
def recon (came : ℕ → Option (ℕ × Bool)) : ℕ → ℕ → List ℕ
  | 0, cur => [cur]
  | fuel + 1, cur =>
      match came cur with
      | none => [cur]
      | some pb => recon came fuel pb.1 ++ [cur]

/-- The search loop, with the iteration ceiling as fuel: stop with a
no-path answer when the queue empties or the ceiling is reached, succeed
when a popped node is a goal, and otherwise relax all neighbors. -/
def astarLoop (d : ℕ → ℕ → ℚ) (E : List (ℕ × ℕ)) (nodes : List ℕ)
    (flooded : List (ℕ × ℕ)) (goals : List ℕ) (allowNew : Bool) :
    ℕ → SState → Option (List ℕ × Option ℚ × ℕ)
  | 0, _ => none
  | fuel + 1, st =>
      match popMin st.opn with
      | none => none
      | some (entry, opn2) =>
          if entry.2 ∈ goals then
            some (recon st.came (nodes.length + 1) entry.2, st.gsc entry.2, entry.2)
          else
            astarLoop d E nodes flooded goals allowNew fuel
              ((neighborsOf d E nodes allowNew entry.2).foldl
                (relaxStep d flooded goals entry.2)
                { st with opn := opn2, hsh := st.hsh.erase entry.2 })

/-- Initial search state for an origin node. -/
def initSearch (d : ℕ → ℕ → ℚ) (start : ℕ) (goals : List ℕ) : SState :=
  { opn := [(some 0, start)], hsh := [start],
    came := fun _ => none,
    gsc := updFn (fun _ => none) start (some 0),
    fsc := updFn (fun _ => none) start (heurOpt d start goals) }

/-- The per-origin search. -/
def astarQ (d : ℕ → ℕ → ℚ) (nodes : List ℕ) (E : List (ℕ × ℕ))
    (flooded : List (ℕ × ℕ)) (start : ℕ) (goals : List ℕ) (allowNew : Bool)
    (maxIter : ℕ) : Option (List ℕ × Option ℚ × ℕ) :=
  astarLoop d E nodes flooded goals allowNew maxIter (initSearch d start goals)

/-- ROI of a route: infinite (`none`) when the estimated cost is not
positive, the plain ratio otherwise. -/
def roiOf (relief cost : ℚ) : Option ℚ :=
  if 0 < cost then some (relief / cost) else none

theorem recon_last (came : ℕ → Option (ℕ × Bool)) :
    ∀ (fuel cur : ℕ),
      recon came fuel cur ≠ [] ∧ (recon came fuel cur).getLast? = some cur := by
  intro fuel
  induction fuel with
  | zero => intro cur; exact ⟨by simp [recon], by simp [recon]⟩
  | succ fuel ih =>
      intro cur
      cases hc : came cur with
      | none => exact ⟨by simp [recon, hc], by simp [recon, hc]⟩
      | some pb =>
          refine ⟨by simp [recon, hc], ?_⟩
          simp [recon, hc, List.getLast?_append_cons]

theorem popMin_singleton (x : Option ℚ × ℕ) : popMin [x] = some (x, []) := by
  simp [popMin]

end Astar

namespace Astar

theorem astarLoop_success (d : ℕ → ℕ → ℚ) (nodes : List ℕ) (E flooded : List (ℕ × ℕ))
    (goals : List ℕ) (allowNew : Bool) :
    ∀ (fuel : ℕ) (st : SState) (p : List ℕ) (c : Option ℚ) (gl : ℕ),
      astarLoop d E nodes flooded goals allowNew fuel st = some (p, c, gl) →
      gl ∈ goals ∧ p ≠ [] ∧ p.getLast? = some gl := by
  intro fuel
  induction fuel with
  | zero =>
      intro st p c gl h
      exact absurd h (by simp [astarLoop])
  | succ fuel ih =>
      intro st p c gl h
      cases hpop : popMin st.opn with
      | none => simp [astarLoop, hpop] at h
      | some pr =>
          obtain ⟨entry, opn2⟩ := pr
          simp only [astarLoop, hpop] at h
          by_cases hg : entry.2 ∈ goals
          · rw [if_pos hg] at h
            simp only [Option.some.injEq, Prod.mk.injEq] at h
            obtain ⟨hp, _, hgl⟩ := h
            subst hp
            subst hgl
            exact ⟨hg, (recon_last st.came (nodes.length + 1) entry.2).1,
              (recon_last st.came (nodes.length + 1) entry.2).2⟩
          · rw [if_neg hg] at h
            exact ih _ p c gl h

/-- C5: the per-origin search is total and its outcomes are exactly the
spec shapes: a success names a goal-set member and ends its path there; an
exhausted iteration ceiling or an empty queue yields a no-path answer; and
with a ceiling of one iteration any instance whose start is not itself a
goal (hence needs at least two expansions) yields a no-path answer. -/
theorem astar_search_behavior :
    (∀ (d : ℕ → ℕ → ℚ) (nodes : List ℕ) (E flooded : List (ℕ × ℕ))
        (start : ℕ) (goals : List ℕ) (allowNew : Bool) (maxIter : ℕ)
        (p : List ℕ) (c : Option ℚ) (gl : ℕ),
       astarQ d nodes E flooded start goals allowNew maxIter = some (p, c, gl) →
         gl ∈ goals ∧ p ≠ [] ∧ p.getLast? = some gl)
    ∧ (∀ (d : ℕ → ℕ → ℚ) (nodes : List ℕ) (E flooded : List (ℕ × ℕ))
        (start : ℕ) (goals : List ℕ) (allowNew : Bool),
       start ∉ goals →
       astarQ d nodes E flooded start goals allowNew 1 = none)
    ∧ (∀ (d : ℕ → ℕ → ℚ) (nodes : List ℕ) (E flooded : List (ℕ × ℕ))
        (goals : List ℕ) (allowNew : Bool) (st : SState),
       astarLoop d E nodes flooded goals allowNew 0 st = none)
    ∧ (∀ (d : ℕ → ℕ → ℚ) (nodes : List ℕ) (E flooded : List (ℕ × ℕ))
        (goals : List ℕ) (allowNew : Bool) (fuel : ℕ) (st : SState),
       st.opn = [] →
       astarLoop d E nodes flooded goals allowNew fuel st = none) := by
  refine ⟨?_, ?_, ?_, ?_⟩
  · intro d nodes E flooded start goals allowNew maxIter p c gl h
    exact astarLoop_success d nodes E flooded goals allowNew maxIter _ p c gl h
  · intro d nodes E flooded start goals allowNew hng
    show astarLoop d E nodes flooded goals allowNew 1 (initSearch d start goals) = none
    have hpop : popMin (initSearch d start goals).opn = some ((some 0, start), []) :=
      popMin_singleton (some 0, start)
    simp only [astarLoop, hpop]
    rw [if_neg hng]
  · intro d nodes E flooded goals allowNew st
    rfl
  · intro d nodes E flooded goals allowNew fuel st hemp
    cases fuel with
    | zero => rfl
    | succ fuel => simp [astarLoop, hemp, popMin]

/-- C10: when the start node is itself a goal, the search succeeds in its
first iteration with the single-node path, zero cost, and the start as the
reached goal, for any iteration ceiling of at least one. -/
theorem start_in_goals_immediate (d : ℕ → ℕ → ℚ) (nodes : List ℕ)
    (E flooded : List (ℕ × ℕ)) (start : ℕ) (goals : List ℕ) (allowNew : Bool)
    (maxIter : ℕ) (hg : start ∈ goals) (hm : 1 ≤ maxIter) :
    astarQ d nodes E flooded start goals allowNew maxIter
      = some ([start], some 0, start) := by
  obtain ⟨k, rfl⟩ : ∃ k, maxIter = k + 1 := ⟨maxIter - 1, by omega⟩
  show astarLoop d E nodes flooded goals allowNew (k + 1) (initSearch d start goals)
      = some ([start], some 0, start)
  have hpop : popMin (initSearch d start goals).opn = some ((some 0, start), []) :=
    popMin_singleton (some 0, start)
  simp only [astarLoop, hpop]
  rw [if_pos hg]
  simp [initSearch, recon, updFn]

end Astar

namespace Astar

/-- One segment record produced by the path analysis (endpoints and
geometric length). -/
structure Seg where
  su : ℕ
  sv : ℕ
  len : ℚ
deriving DecidableEq

/-- Whether the hop into `v` was taken over a synthetic edge, read from the
parent map with a non-synthetic default for absent keys. -/
def isNewOf (came : ℕ → Option (ℕ × Bool)) (v : ℕ) : Bool :=
  match came v with
  | some pb => pb.2
  | none => false

/-- The path analysis: walk consecutive hops, partition them by the
synthetic-edge flag, and accumulate the total geometric length. -/
def analyzePath (d : ℕ → ℕ → ℚ) (came : ℕ → Option (ℕ × Bool)) :
    List ℕ → List Seg × List Seg × ℚ
  | [] => ([], [], 0)
  | [_] => ([], [], 0)
  | a :: b :: rest =>
      if isNewOf came b then
        ((analyzePath d came (b :: rest)).1,
          ⟨a, b, d a b⟩ :: (analyzePath d came (b :: rest)).2.1,
          (analyzePath d came (b :: rest)).2.2 + d a b)
      else
        (⟨a, b, d a b⟩ :: (analyzePath d came (b :: rest)).1,
          (analyzePath d came (b :: rest)).2.1,
          (analyzePath d came (b :: rest)).2.2 + d a b)

/-- The geometric length of a path: the sum of the hop distances. -/
def pathLen (d : ℕ → ℕ → ℚ) : List ℕ → ℚ
  | [] => 0
  | [_] => 0
  | a :: b :: rest => d a b + pathLen d (b :: rest)

/-- C9: the path analysis partitions the hops: existing-segment lengths
plus synthetic-segment lengths sum to the total geometric path length, and
the accumulated total it reports is that same length. -/
theorem path_partition_sums (d : ℕ → ℕ → ℚ) (came : ℕ → Option (ℕ × Bool)) :
    ∀ path : List ℕ,
      sumBy (analyzePath d came path).1 (fun s => s.len)
          + sumBy (analyzePath d came path).2.1 (fun s => s.len)
        = pathLen d path
      ∧ (analyzePath d came path).2.2 = pathLen d path := by
  intro path
  induction path with
  | nil => exact ⟨by simp [analyzePath, pathLen, sumBy_nil], rfl⟩
  | cons a rest ih =>
      cases rest with
      | nil => exact ⟨by simp [analyzePath, pathLen, sumBy_nil], rfl⟩
      | cons b rest2 =>
          obtain ⟨ih1, ih2⟩ := ih
          by_cases hn : isNewOf came b = true
          · constructor
            · simp only [analyzePath, hn, if_true, sumBy_cons, pathLen]
              rw [← ih1]
              ring
            · simp only [analyzePath, hn, if_true, pathLen]
              rw [ih2]
              ring
          · rw [Bool.not_eq_true] at hn
            constructor
            · simp only [analyzePath, hn, Bool.false_eq_true, if_false, sumBy_cons, pathLen]
              rw [← ih1]
              ring
            · simp only [analyzePath, hn, Bool.false_eq_true, if_false, pathLen]
              rw [ih2]
              ring

end Astar

/-- C8: both division-by-zero guards. With zero total outgoing capacity the
node water is split equally (each edge records water over the edge count),
and a zero estimated construction cost reports an infinite ROI instead of
dividing. Neither case divides by zero. -/
theorem division_guards (edges : List Flow.FEdge) (s : Flow.SimState) (n : ℕ)
    (hE : (edges.map fun e => (e.u, e.v)).Nodup)
    (htot : ((Flow.outE edges n).map (fun e => e.cap)).sum = 0)
    (e : Flow.FEdge) (he : e ∈ Flow.outE edges n) :
    (Flow.processNode edges s n).eflow (n, e.v)
      = some (s.water n * (1 / (((Flow.outE edges n).length : ℚ))))
    ∧ ∀ r : ℚ, Astar.roiOf r 0 = none := by
  constructor
  · have hne : ¬ (Flow.outE edges n).isEmpty = true := by
      intro hx
      rw [(Flow.isEmpty_true_iff (Flow.outE edges n)).mp hx] at he
      exact List.not_mem_nil e he
    rw [Flow.processNode_eq edges s n hne]
    obtain ⟨_, _, _, fH, _⟩ :=
      Flow.pushEdge_fold n (s.water n) (((Flow.outE edges n).map (fun e => e.cap)).sum)
        (((Flow.outE edges n).length : ℚ)) (Flow.outE edges n) s
    have h := fH (Flow.outE_targets_nodup edges n hE) e he
    rw [h, Flow.flVal, Flow.propOf, htot, if_neg (lt_irrefl 0)]
  · intro r
    rw [Astar.roiOf, if_neg (lt_irrefl 0)]

/-- Concrete instance of the amended heuristic bound: a one-hop unflooded
walk from node 0 to the single goal 1 under the discrete metric. -/
theorem heuristic_admissible_no_flood_witness :
    ((∀ x, Astar.dCex x x = 0) ∧ (∀ x y, 0 ≤ Astar.dCex x y)
      ∧ (∀ x y z, Astar.dCex x z ≤ Astar.dCex x y + Astar.dCex y z)
      ∧ Astar.validSteps Astar.dCex [(0, 1)] [0, 1] 0 [(1, false)] = true
      ∧ Astar.noFloodedStep [] 0 [(1, false)] = true
      ∧ Astar.stepsEnd 0 [(1, false)] ∈ [1])
    ∧ Astar.heurVal Astar.dCex 0 1 []
        ≤ Astar.stepsCost Astar.dCex [] 0 [(1, false)] :=
  ⟨⟨Astar.dCex_zero, Astar.dCex_nonneg, Astar.dCex_tri,
      by decide, by decide, by decide⟩,
    Astar.heuristic_admissible_no_flood Astar.dCex [(0, 1)] [0, 1] [] 1 []
      Astar.dCex_zero Astar.dCex_nonneg Astar.dCex_tri [(1, false)] 0
      (by decide) (by decide) (by decide)⟩

/-- Concrete instance of outflow conservation: one edge 0 -> 1 of capacity
5, unit rainfall, processing order [0, 1]. -/
theorem outflow_conservation_witness :
    ((([] ++ 0 :: [1] : List ℕ).Nodup
      ∧ (([⟨0, 1, 5⟩] : List Flow.FEdge).map fun e => (e.u, e.v)).Nodup
      ∧ (∀ e ∈ ([⟨0, 1, 5⟩] : List Flow.FEdge), 0 ≤ e.cap)
      ∧ (∀ v : ℕ, 0 ≤ (fun _ => (1 : ℚ)) v))
    ∧ (sumBy (Flow.outE [⟨0, 1, 5⟩] 0)
          (Flow.recFlow (Flow.simulate [⟨0, 1, 5⟩] (fun _ => 1) ([] ++ 0 :: [1])))
        ≤ (fun _ => (1 : ℚ)) 0
          + sumBy (Flow.inE [⟨0, 1, 5⟩] 0)
              (Flow.accepted (Flow.simulate [⟨0, 1, 5⟩] (fun _ => 1) ([] ++ 0 :: [1]))))
      ∧ (Flow.outE [⟨0, 1, 5⟩] 0 ≠ [] →
         (∀ e ∈ ([⟨0, 1, 5⟩] : List Flow.FEdge), e.v = 0 → e.u ∈ [] ++ 0 :: [1] →
            e.u ∈ ([] : List ℕ)) →
         sumBy (Flow.outE [⟨0, 1, 5⟩] 0)
             (Flow.recFlow (Flow.simulate [⟨0, 1, 5⟩] (fun _ => 1) ([] ++ 0 :: [1])))
           = (fun _ => (1 : ℚ)) 0 + sumBy [⟨0, 1, 5⟩] (fun e =>
               if e.v = 0 ∧ e.u ∈ [] ++ 0 :: [1]
               then Flow.accepted (Flow.simulate [⟨0, 1, 5⟩] (fun _ => 1) ([] ++ 0 :: [1])) e
               else 0))) :=
  ⟨⟨by decide, by decide, by decide, fun v => by norm_num⟩,
    Flow.outflow_conservation [⟨0, 1, 5⟩] (fun _ => 1) [] [1] 0
      (by decide) (by decide) (by decide) (fun v => by norm_num)⟩

/-- Concrete instance of the flood-flag equivalence: the edge 0 -> 1 of
capacity 5 records flow 1 and is accordingly not flagged. -/
theorem flood_flag_iff_witness :
    ((([0, 1] : List ℕ).Nodup
      ∧ (([⟨0, 1, 5⟩] : List Flow.FEdge).map fun e => (e.u, e.v)).Nodup
      ∧ (∀ e' ∈ ([⟨0, 1, 5⟩] : List Flow.FEdge), 0 ≤ e'.cap)
      ∧ (∀ v : ℕ, 0 ≤ (fun _ => (1 : ℚ)) v)
      ∧ (⟨0, 1, 5⟩ : Flow.FEdge) ∈ ([⟨0, 1, 5⟩] : List Flow.FEdge)
      ∧ (Flow.simulate [⟨0, 1, 5⟩] (fun _ => 1) [0, 1]).eflow (0, 1) = some 1)
    ∧ ((∃ r ∈ (Flow.simulate [⟨0, 1, 5⟩] (fun _ => 1) [0, 1]).flooded,
          r.fu = 0 ∧ r.fv = 1) ↔ (5 : ℚ) < 1)
      ∧ (∀ r ∈ (Flow.simulate [⟨0, 1, 5⟩] (fun _ => 1) [0, 1]).flooded,
          r.fu = 0 → r.fv = 1 →
            r.flow = 1 ∧ r.capacity = 5 ∧ r.overflow = 1 - 5 ∧ 0 < r.overflow)) :=
  ⟨⟨by decide, by decide, by decide, fun v => by norm_num, by decide,
      by norm_num [Flow.simulate, Flow.initState, Flow.processNode, Flow.outE, Flow.pushEdge, Flow.propOf, updFn]⟩,
    Flow.flood_flag_iff [⟨0, 1, 5⟩] (fun _ => 1) [0, 1]
      (by decide) (by decide) (by decide) (fun v => by norm_num)
      ⟨0, 1, 5⟩ (by decide) 1
      (by norm_num [Flow.simulate, Flow.initState, Flow.processNode, Flow.outE, Flow.pushEdge, Flow.propOf, updFn])⟩

/-- Concrete instance of the per-edge capping: one outgoing edge 0 -> 1 of
capacity 5 from unit water, so the full proportional flow is forwarded. -/
theorem flow_split_capped_witness :
    (((1 : ℚ) = (Flow.initState (fun _ => 1)).water 0
      ∧ (5 : ℚ) = ((Flow.outE [⟨0, 1, 5⟩] 0).map (fun e => e.cap)).sum
      ∧ (1 : ℚ) = (((Flow.outE [⟨0, 1, 5⟩] 0).length : ℚ))
      ∧ (([⟨0, 1, 5⟩] : List Flow.FEdge).map fun e => (e.u, e.v)).Nodup
      ∧ (⟨0, 1, 5⟩ : Flow.FEdge) ∈ Flow.outE [⟨0, 1, 5⟩] 0)
    ∧ ((((5 : ℚ) < Flow.flVal 1 5 1 ⟨0, 1, 5⟩ →
          (Flow.processNode [⟨0, 1, 5⟩] (Flow.initState fun _ => 1) 0).water 1
            = (Flow.initState (fun _ => (1 : ℚ))).water 1 + 5)
        ∧ (¬ (5 : ℚ) < Flow.flVal 1 5 1 ⟨0, 1, 5⟩ →
          (Flow.processNode [⟨0, 1, 5⟩] (Flow.initState fun _ => 1) 0).water 1
            = (Flow.initState (fun _ => (1 : ℚ))).water 1 + Flow.flVal 1 5 1 ⟨0, 1, 5⟩))
      ∧ (Flow.processNode [⟨0, 1, 5⟩] (Flow.initState fun _ => 1) 0).excess 0
          = (Flow.initState (fun _ => (1 : ℚ))).excess 0
            + sumBy (Flow.outE [⟨0, 1, 5⟩] 0) (Flow.ovVal 1 5 1)
      ∧ (Flow.processNode [⟨0, 1, 5⟩] (Flow.initState fun _ => 1) 0).eflow (0, 1)
          = some (Flow.flVal 1 5 1 ⟨0, 1, 5⟩))) :=
  ⟨⟨rfl, by norm_num [Flow.outE], by norm_num [Flow.outE], by decide, by decide⟩,
    Flow.flow_split_capped [⟨0, 1, 5⟩] (Flow.initState fun _ => 1) 0 1 5 1
      rfl (by norm_num [Flow.outE]) (by norm_num [Flow.outE]) (by decide)
      ⟨0, 1, 5⟩ (by decide)⟩

/-- Concrete instance of the search-outcome characterization: ceiling 1 on
an instance whose start is not a goal yields a no-path answer. -/
theorem astar_search_behavior_witness :
    ((0 : ℕ) ∉ ([2] : List ℕ))
    ∧ Astar.astarQ (fun _ _ => (1 : ℚ)) [0, 1, 2] [(0, 1), (1, 2)] [] 0 [2] true 1
        = none :=
  ⟨by decide,
    Astar.astar_search_behavior.2.1 (fun _ _ => (1 : ℚ)) [0, 1, 2] [(0, 1), (1, 2)]
      [] 0 [2] true (by decide)⟩

/-- Concrete instance of the orientation rule for the undirected edge
(1, 0) with node 1 east of node 0. -/
theorem edge_orientation_witness :
    (((1 : ℕ), (0 : ℕ)) ∈ ([(1, 0)] : List (ℕ × ℕ)))
    ∧ ((((0 : ℕ) : ℚ) < ((1 : ℕ) : ℚ) →
          (1, 0) ∈ Flow.directedOf (fun x => (x : ℚ)) (fun _ => 0) [(1, 0)])
      ∧ (((1 : ℕ) : ℚ) < ((0 : ℕ) : ℚ) →
          (0, 1) ∈ Flow.directedOf (fun x => (x : ℚ)) (fun _ => 0) [(1, 0)])
      ∧ (((1 : ℕ) : ℚ) = ((0 : ℕ) : ℚ) → (0 : ℚ) < 0 →
          (1, 0) ∈ Flow.directedOf (fun x => (x : ℚ)) (fun _ => 0) [(1, 0)])
      ∧ (((1 : ℕ) : ℚ) = ((0 : ℕ) : ℚ) → (0 : ℚ) < 0 →
          (0, 1) ∈ Flow.directedOf (fun x => (x : ℚ)) (fun _ => 0) [(1, 0)])) :=
  ⟨by decide,
    Flow.edge_orientation (fun x => (x : ℚ)) (fun _ => 0) [(1, 0)] 1 0 (by decide)⟩

/-- Concrete instance of transitive snapping: three collinear endpoints
0.0009 degrees apart with a 0.001-degree threshold, so the outer pair is
out of range yet all three merge. -/
theorem snap_transitivity_witness :
    ((0 : ℕ) < ([(0, 0), (0, 9 / 10000), (0, 18 / 10000)] : List (ℚ × ℚ)).length
      ∧ (1 : ℕ) < ([(0, 0), (0, 9 / 10000), (0, 18 / 10000)] : List (ℚ × ℚ)).length
      ∧ (2 : ℕ) < ([(0, 0), (0, 9 / 10000), (0, 18 / 10000)] : List (ℚ × ℚ)).length
      ∧ (0 : ℕ) ≠ 1 ∧ (1 : ℕ) ≠ 2
      ∧ BuildG.sqDist
          (([(0, 0), (0, 9 / 10000), (0, 18 / 10000)] : List (ℚ × ℚ)).getD 0 (0, 0))
          (([(0, 0), (0, 9 / 10000), (0, 18 / 10000)] : List (ℚ × ℚ)).getD 1 (0, 0))
          ≤ 1 / 1000000
      ∧ BuildG.sqDist
          (([(0, 0), (0, 9 / 10000), (0, 18 / 10000)] : List (ℚ × ℚ)).getD 1 (0, 0))
          (([(0, 0), (0, 9 / 10000), (0, 18 / 10000)] : List (ℚ × ℚ)).getD 2 (0, 0))
          ≤ 1 / 1000000)
    ∧ (BuildG.sameCluster
          (BuildG.clusterParent [(0, 0), (0, 9 / 10000), (0, 18 / 10000)] (1 / 1000000)) 0 1
      ∧ BuildG.sameCluster
          (BuildG.clusterParent [(0, 0), (0, 9 / 10000), (0, 18 / 10000)] (1 / 1000000)) 1 2
      ∧ BuildG.sameCluster
          (BuildG.clusterParent [(0, 0), (0, 9 / 10000), (0, 18 / 10000)] (1 / 1000000)) 0 2) :=
  ⟨⟨by decide, by decide, by decide, by decide, by decide,
      by norm_num [BuildG.sqDist, List.getD], by norm_num [BuildG.sqDist, List.getD]⟩,
    BuildG.snap_transitivity [(0, 0), (0, 9 / 10000), (0, 18 / 10000)] (1 / 1000000)
      0 1 2 (by decide) (by decide) (by decide) (by decide) (by decide)
      (by norm_num [BuildG.sqDist, List.getD]) (by norm_num [BuildG.sqDist, List.getD])⟩

/-- Concrete instance of the division guards: a single zero-capacity
outgoing edge takes the equal-split branch, and a zero estimated cost
reports the infinite ROI. -/
theorem division_guards_witness :
    ((([⟨0, 1, 0⟩] : List Flow.FEdge).map fun e => (e.u, e.v)).Nodup
      ∧ ((Flow.outE [⟨0, 1, 0⟩] 0).map (fun e => e.cap)).sum = 0
      ∧ (⟨0, 1, 0⟩ : Flow.FEdge) ∈ Flow.outE [⟨0, 1, 0⟩] 0)
    ∧ ((Flow.processNode [⟨0, 1, 0⟩] (Flow.initState fun _ => 1) 0).eflow (0, 1)
        = some ((Flow.initState (fun _ => (1 : ℚ))).water 0
            * (1 / (((Flow.outE [⟨0, 1, 0⟩] 0).length : ℚ))))
      ∧ ∀ r : ℚ, Astar.roiOf r 0 = none) :=
  ⟨⟨by decide, by norm_num [Flow.outE], by decide⟩,
    division_guards [⟨0, 1, 0⟩] (Flow.initState fun _ => 1) 0
      (by decide) (by norm_num [Flow.outE]) ⟨0, 1, 0⟩ (by decide)⟩

/-- Concrete instance of the immediate-success case: start 0 is the goal,
ceiling 3. -/
theorem start_in_goals_immediate_witness :
    ((0 : ℕ) ∈ ([0] : List ℕ) ∧ 1 ≤ 3)
    ∧ Astar.astarQ (fun _ _ => (1 : ℚ)) [0] [] [] 0 [0] true 3
        = some ([0], some 0, 0) :=
  ⟨⟨by decide, by decide⟩,
    Astar.start_in_goals_immediate (fun _ _ => (1 : ℚ)) [0] [] [] 0 [0] true 3
      (by decide) (by decide)⟩
